import Mathlib

/-!
Verification of the RustSearch index/search engine.

The definitions below are a shallow embedding of the Rust sources:

* `src/src/searcher.rs` — tokenised fuzzy search, scoring, bounded top-K
  selection through a binary min-heap (`std::collections::BinaryHeap` over
  `Reverse<HeapItem>`), final descending stable sort;
* `src/src/indexer.rs` — the entry store and the versioned cache codec
  (`DiskEntryV2`, `save_cache`, `load_cache_v2`);
* `src/src/windows_usn.rs` — incremental synchronisation from USN journal
  events (`read_usn_events`, `apply_events_for_drive`,
  `remove_entry_by_idx`, `remove_entries_by_prefix`,
  `update_entries_prefix`).

Modelling conventions:

* Rust `f32` scores are modelled by exact rational arithmetic (`Q` below).
  Every constant in the scoring code (`18.0`, `1.5`, `0.6`, …) is exactly
  representable in `f32`, no score computed in the concrete test cases of
  this file comes near `f32` rounding granularity, and no NaN/infinity can
  arise (all divisors are `≥ 1`), so `total_cmp`/`partial_cmp` on the
  source's scores coincide with the rational order used here.
* Strings are Lean `String`s; per-character operations mirror the source's
  `chars()` iteration on `List Char`.  `to_ascii_lowercase` is modelled by
  `Char.toLower` (identical on ASCII, the source's fast path).
* Rust machine integers (`u8`, `u64`, `usize`, `i64`) are `Nat`/`Int`; no
  operation in the modelled code can overflow them.
* External library structures are modelled at their documented semantics:
  `HashMap<u64, usize>` as an association list with first-match lookup and
  overwrite insert, `BinaryHeap` by the exact array algorithm of Rust's
  std (push = append + sift-up; pop = swap-remove root + sift-down to
  bottom + sift-up), since the iteration order of `BinaryHeap::into_iter`
  (the backing vector's order) is observable in the result list.
* Recursions whose termination is not structural use an explicit fuel
  argument (always called with provably sufficient fuel) so that every
  definition reduces in the kernel and concrete runs can be checked by
  `decide`.
-/

namespace RustSearch

/-! ## Exact rational scores

`Q` is an unnormalised fraction with positive denominator: the exact-value
model of the source's `f32` score arithmetic.  Kept kernel-computable on
purpose (Lean's `Rat.add`/`Rat.mul` are `@[irreducible]`, which would make
concrete score evaluation impossible by `decide`). -/

structure Q where
  num : Int
  den : Nat
  den_pos : 0 < den

instance : OfNat Q n := ⟨⟨n, 1, Nat.one_pos⟩⟩

instance : NatCast Q := ⟨fun n => ⟨n, 1, Nat.one_pos⟩⟩

def Q.add (a b : Q) : Q :=
  ⟨a.num * b.den + b.num * a.den, a.den * b.den, Nat.mul_pos a.den_pos b.den_pos⟩

def Q.sub (a b : Q) : Q :=
  ⟨a.num * b.den - b.num * a.den, a.den * b.den, Nat.mul_pos a.den_pos b.den_pos⟩

def Q.mul (a b : Q) : Q :=
  ⟨a.num * b.num, a.den * b.den, Nat.mul_pos a.den_pos b.den_pos⟩

instance : Add Q := ⟨Q.add⟩

instance : Sub Q := ⟨Q.sub⟩

instance : Mul Q := ⟨Q.mul⟩

/-- Exact division.  Every divisor in the modelled code is `≥ 1`, so the
zero-divisor branch (kept total, mapping to `0`) is never taken. -/
def Q.div (a b : Q) : Q :=
  if h : b.num = 0 then ⟨0, 1, Nat.one_pos⟩
  else ⟨b.num.sign * a.num * b.den, a.den * b.num.natAbs,
        Nat.mul_pos a.den_pos (Int.natAbs_pos.mpr h)⟩

instance : Div Q := ⟨Q.div⟩

instance : OfScientific Q :=
  ⟨fun m s e =>
    if s then ⟨m, 10 ^ e, Nat.pos_pow_of_pos e (by decide)⟩
    else ⟨m * 10 ^ e, 1, Nat.one_pos⟩⟩

def Q.le (a b : Q) : Prop := a.num * b.den ≤ b.num * a.den

def Q.lt (a b : Q) : Prop := a.num * b.den < b.num * a.den

/-- Value equality of fractions (the model of `f32` equality / `total_cmp`
returning `Equal`). -/
def Q.eqv (a b : Q) : Prop := a.num * b.den = b.num * a.den

instance : LE Q := ⟨Q.le⟩

instance : LT Q := ⟨Q.lt⟩

instance (a b : Q) : Decidable (a ≤ b) :=
  inferInstanceAs (Decidable (a.num * b.den ≤ b.num * a.den))

instance (a b : Q) : Decidable (a < b) :=
  inferInstanceAs (Decidable (a.num * b.den < b.num * a.den))

instance (a b : Q) : Decidable (Q.eqv a b) :=
  inferInstanceAs (Decidable (a.num * b.den = b.num * a.den))

/-- `f32::min`. -/
instance : Min Q := ⟨fun a b => if a ≤ b then a else b⟩

/-- `f32::max`. -/
instance : Max Q := ⟨fun a b => if a ≤ b then b else a⟩

theorem Q.le_refl (a : Q) : a ≤ a := Int.le_refl _

theorem Q.le_total (a b : Q) : a ≤ b ∨ b ≤ a := Int.le_total _ _

theorem Q.lt_iff_not_le {a b : Q} : a < b ↔ ¬ b ≤ a := by
  have h1 : (a < b) = (a.num * b.den < b.num * a.den) := rfl
  have h2 : (b ≤ a) = (b.num * a.den ≤ a.num * b.den) := rfl
  rw [h1, h2]; omega

theorem Q.le_of_lt {a b : Q} (h : a < b) : a ≤ b := Int.le_of_lt h

theorem Q.le_trans {a b c : Q} (h1 : a ≤ b) (h2 : b ≤ c) : a ≤ c := by
  have ha : (0:Int) < a.den := Int.ofNat_pos.mpr a.den_pos
  have hb : (0:Int) < b.den := Int.ofNat_pos.mpr b.den_pos
  have hc : (0:Int) < c.den := Int.ofNat_pos.mpr c.den_pos
  have h1 : a.num * b.den ≤ b.num * a.den := h1
  have h2 : b.num * c.den ≤ c.num * b.den := h2
  have key : a.num * c.den * b.den ≤ c.num * a.den * b.den := by nlinarith
  exact le_of_mul_le_mul_right key hb

theorem Q.lt_of_le_of_lt {a b c : Q} (h1 : a ≤ b) (h2 : b < c) : a < c := by
  rw [Q.lt_iff_not_le] at h2 ⊢
  exact fun hca => h2 (Q.le_trans hca h1)

theorem Q.lt_of_lt_of_le {a b c : Q} (h1 : a < b) (h2 : b ≤ c) : a < c := by
  rw [Q.lt_iff_not_le] at h1 ⊢
  exact fun hca => h1 (Q.le_trans h2 hca)

theorem Q.lt_trans {a b c : Q} (h1 : a < b) (h2 : b < c) : a < c :=
  Q.lt_of_le_of_lt (Q.le_of_lt h1) h2

theorem Q.le_of_not_lt {a b : Q} (h : ¬ a < b) : b ≤ a := by
  rcases Q.le_total b a with h1 | h1
  · exact h1
  · rcases Int.lt_or_le (a.num * b.den) (b.num * a.den) with h2 | h2
    · exact absurd h2 h
    · exact h2

theorem Q.eqv_of_le_of_le {a b : Q} (h1 : a ≤ b) (h2 : b ≤ a) : Q.eqv a b :=
  Int.le_antisymm h1 h2

theorem Q.eqv.le {a b : Q} (h : Q.eqv a b) : a ≤ b := Int.le_of_eq h

theorem Q.eqv.ge {a b : Q} (h : Q.eqv a b) : b ≤ a := Int.le_of_eq h.symm

/-! ## Entry store (`indexer.rs`, `windows_usn.rs`)

`FileEntry` as constructed by `windows_usn.rs` (lines 279–291): the struct
declared in `indexer.rs` omits the three identity fields `drive`, `frn`,
`parent_frn`, but every construction site in `windows_usn.rs` fills them,
and the spec's data model (§3) lists them; the union of fields is used
here.  Code that does not touch the identity fields ignores them. -/

structure FileEntry where
  name : String
  name_lower : String
  path : String
  path_lower : String
  drive : Nat
  frn : Nat
  parent_frn : Nat
  size : Nat
  modified_ms : Nat
  is_dir : Bool
  is_hidden : Bool
deriving DecidableEq

instance : Inhabited FileEntry := ⟨⟨"", "", "", "", 0, 0, 0, 0, 0, false, false⟩⟩

/-- `lowercase_for_search` (`indexer.rs` 618–624, `windows_usn.rs` 799–804):
ASCII fast path `to_ascii_lowercase`, modelled per character by
`Char.toLower` (identical on ASCII). -/
def lowercase_for_search (s : String) : String := ⟨s.data.map Char.toLower⟩

/-! ## Search options and results (`searcher.rs`) -/

structure SearchOptions where
  case_sensitive : Bool
  regex : Bool
  path_search : Bool
  fuzzy : Bool
  max_results : Nat
deriving DecidableEq

/-- `SearchOptions::default()` (`searcher.rs` 15–25). -/
def SearchOptions.defaults : SearchOptions :=
  { case_sensitive := false, regex := false, path_search := false,
    fuzzy := true, max_results := 500 }

inductive MatchType where
  | Name
  | Path
  | Extension
deriving DecidableEq

/-! ## Fuzzy subsequence matching (`searcher.rs` 396–437) -/

structure FuzzyMatch where
  first : Nat
  last : Nat
  gaps : Nat
deriving DecidableEq

/-- Loop body of `fuzzy_match`: scan the haystack characters at index `i`
looking for `current`, with the rest of the needle in `rest`; `first`,
`prev` and `gaps` are the accumulators of the source. -/
def fuzzyMatchAux (current : Char) (rest : List Char) (first : Option Nat)
    (prev : Option Nat) (gaps : Nat) : List Char → Nat → Option FuzzyMatch
  | [], _ => none
  | c :: hs, i =>
    if c ≠ current then fuzzyMatchAux current rest first prev gaps hs (i + 1)
    else
      let first' := first.getD i
      let gaps' := gaps + (match prev with | some p => i - (p + 1) | none => 0)
      match rest with
      | [] => some ⟨first', i, gaps'⟩
      | n :: ns => fuzzyMatchAux n ns (some first') (some i) gaps' hs (i + 1)

/-- `fuzzy_match` (`searcher.rs` 402–437): greedy first-occurrence
subsequence match, reporting first/last matched index and gap total. -/
def fuzzy_match (haystack needle : List Char) : Option FuzzyMatch :=
  match needle with
  | [] => none
  | n :: ns => fuzzyMatchAux n ns none none 0 haystack 0

structure TokenMatch where
  query_index : Nat
  first : Nat
  last : Nat
  score : Q
  needle_len : Nat

/-- `Searcher::fuzzy_token_match` (`searcher.rs` 355–387). -/
def fuzzy_token_match (haystack token : List Char) (query_index : Nat) :
    Option TokenMatch :=
  if token = [] then none
  else
    match fuzzy_match haystack token with
    | none => none
    | some m =>
      let needle_len := max token.length 1
      let span_n := max (m.last - m.first + 1) 1
      if needle_len ≤ 2 ∧ m.gaps ≠ 0 then none
      else if span_n > needle_len * 10 + 20 then none
      else
        let span : Q := (span_n : Q)
        let compact : Q := min ((needle_len : Q) / span) 1
        let start_bonus : Q := (30 : Q) / (1 + (m.first : Q))
        let gap_penalty : Q := (m.gaps : Q) * 1.5
        let base : Q := 40 + compact * 60 + start_bonus - gap_penalty
        let score : Q := if m.gaps = 0 then base + 20 else base
        some ⟨query_index, m.first, m.last, score, needle_len⟩

/-- Ascending `(first, query_index)` comparison used to sort `by_pos`
(`searcher.rs` 329). -/
def byPosLE (a b : TokenMatch) : Prop :=
  a.first < b.first ∨ (a.first = b.first ∧ a.query_index ≤ b.query_index)

instance : DecidableRel byPosLE := fun a b =>
  inferInstanceAs (Decidable (a.first < b.first ∨
    (a.first = b.first ∧ a.query_index ≤ b.query_index)))

/-- Pair inversion count of `query_index` over the position-sorted matches
(`searcher.rs` 331–338). -/
def inversionCount : List TokenMatch → Nat
  | [] => 0
  | m :: rest =>
    (rest.filter (fun m2 => m2.query_index < m.query_index)).length +
      inversionCount rest

/-- Sum of inter-token gaps over consecutive position-sorted matches
(`searcher.rs` 344–349). -/
def windowGapSum : List TokenMatch → Nat
  | a :: b :: rest => (b.first - (a.last + 1)) + windowGapSum (b :: rest)
  | _ => 0

/-- `Searcher::fuzzy_tokens_score` (`searcher.rs` 276–353). -/
def fuzzy_tokens_score (haystack : List Char) (tokens : List (List Char)) :
    Option Q :=
  if tokens.length = 0 then none
  else
    let required := if tokens.length ≤ 2 then tokens.length
                    else tokens.length - 1
    let matched : List TokenMatch :=
      tokens.enum.filterMap (fun p => fuzzy_token_match haystack p.2 p.1)
    let missing : Nat := tokens.length - matched.length
    let base : Q := (matched.map TokenMatch.score).foldl Q.add 0
    if matched.length < required then none
    else
      let score1 : Q := base + (matched.length : Q) * 18 - (missing : Q) * 28
      if matched.length < 2 then some score1
      else
        let folded : Nat × Nat × Nat :=
          matched.foldl
            (fun acc m =>
              (min acc.1 m.first, max acc.2.1 m.last, acc.2.2 + m.needle_len))
            (2 ^ 64 - 1, 0, 0)
        let min_first := folded.1
        let max_last := folded.2.1
        let total_needle_len := folded.2.2
        let span_n := max (max_last - min_first + 1) 1
        let compact : Q := min ((max total_needle_len 1 : Nat) / (span_n : Q)) 1
        let score2 : Q :=
          score1 + compact * 90 -
            max ((span_n : Q) - (max total_needle_len 1 : Nat)) 0 * 0.6
        let by_pos := List.insertionSort byPosLE matched
        let inversions := inversionCount by_pos
        let score3 : Q :=
          score2 - (inversions : Q) * 16 + (if inversions = 0 then (10 : Q) else 0)
        let score4 : Q := score3 - (windowGapSum by_pos : Q) * 0.7
        some score4

/-- `Searcher::substring_match_score` (`searcher.rs` 263–274). -/
def substring_match_score (haystack token : List Char) : Option Q :=
  if token = [] then none
  else if token.isPrefixOf haystack then some 80
  else if token <:+: haystack then some 50
  else none

/-- Summing loop of the non-fuzzy branch of `tokens_score`
(`searcher.rs` 256–260): the `?` aborts on the first unmatched token. -/
def substringTokensScore (haystack : List Char) : List (List Char) → Option Q
  | [] => some 0
  | t :: ts =>
    match substring_match_score haystack t with
    | none => none
    | some s => (substringTokensScore haystack ts).map (fun r => s + r)

/-- `Searcher::tokens_score` (`searcher.rs` 247–261). -/
def tokens_score (opts : SearchOptions) (haystack : List Char)
    (tokens : List (List Char)) : Option Q :=
  if tokens = [] then none
  else if opts.fuzzy then fuzzy_tokens_score haystack tokens
  else substringTokensScore haystack tokens

/-- `Searcher::final_score` (`searcher.rs` 228–245).  `entry.name.len()` is
the UTF-8 byte length. -/
def final_score (entry : FileEntry) (match_score : Q) (mt : MatchType) : Q :=
  (match mt with
   | MatchType.Name => (100 : Q)
   | MatchType.Path => 50
   | MatchType.Extension => 30) +
    match_score - min ((entry.name.utf8ByteSize : Q) / 100) 10

/-! ## The bounded top-K heap (`searcher.rs` 67–93, 194–226)

`HeapItem` and the exact array algorithm of Rust's
`std::collections::BinaryHeap<Reverse<HeapItem>>`: `push` appends and
sifts up; `pop` swap-removes the root, sifts the displaced last element
down to the bottom along the smaller-child path and then back up.  On the
reversed order the root (index 0) is the *minimum* `HeapItem`.
`into_iter` yields the backing vector's order, which is why the layout is
modelled exactly. -/

instance : DecidableEq Q := fun a b =>
  decidable_of_iff (a.num = b.num ∧ a.den = b.den) (by cases a; cases b; simp)

structure HeapItem where
  score : Q
  tie : Nat
  entry : FileEntry
  mtype : MatchType
deriving DecidableEq

instance : Inhabited HeapItem := ⟨⟨0, 0, default, MatchType.Name⟩⟩

/-- `HeapItem::cmp` (`searcher.rs` 87–93), strictly-less part:
`total_cmp` on the score, then the original entry index `tie`. -/
def HeapItem.ilt (x y : HeapItem) : Prop :=
  x.score < y.score ∨ (Q.eqv x.score y.score ∧ x.tie < y.tie)

def HeapItem.ile (x y : HeapItem) : Prop := ¬ HeapItem.ilt y x

instance : DecidableRel HeapItem.ilt := fun x y =>
  inferInstanceAs
    (Decidable (x.score < y.score ∨ (Q.eqv x.score y.score ∧ x.tie < y.tie)))

instance : DecidableRel HeapItem.ile := fun x y =>
  inferInstanceAs (Decidable (¬ HeapItem.ilt y x))

theorem HeapItem.ilt_asymm {x y : HeapItem} (h : HeapItem.ilt x y) :
    ¬ HeapItem.ilt y x := by
  rcases h with h | ⟨he, ht⟩
  · rintro (h2 | ⟨he2, _⟩)
    · exact (Q.lt_iff_not_le.mp h) (Q.le_of_lt h2)
    · exact (Q.lt_iff_not_le.mp h) he2.le
  · rintro (h2 | ⟨he2, ht2⟩)
    · exact (Q.lt_iff_not_le.mp h2) he.le
    · omega

theorem HeapItem.ile_of_ilt {x y : HeapItem} (h : HeapItem.ilt x y) :
    HeapItem.ile x y := HeapItem.ilt_asymm h

theorem HeapItem.ile_refl (x : HeapItem) : HeapItem.ile x x := by
  rintro (h | ⟨_, ht⟩)
  · exact (Q.lt_iff_not_le.mp h) (Q.le_refl _)
  · omega

theorem HeapItem.ile_total (x y : HeapItem) :
    HeapItem.ile x y ∨ HeapItem.ile y x := by
  by_cases h : HeapItem.ilt x y
  · exact Or.inl (HeapItem.ilt_asymm h)
  · exact Or.inr h

/-- The reversed order on items refines the score order. -/
theorem HeapItem.ile_score {x y : HeapItem} (h : HeapItem.ile x y) :
    x.score ≤ y.score := by
  by_cases hs : y.score < x.score
  · exact absurd (Or.inl hs) h
  · exact Q.le_of_not_lt hs

theorem HeapItem.ile_trans {x y z : HeapItem} (h1 : HeapItem.ile x y)
    (h2 : HeapItem.ile y z) : HeapItem.ile x z := by
  intro hzx
  have hyx : x.score ≤ y.score := HeapItem.ile_score h1
  have hzy : y.score ≤ z.score := HeapItem.ile_score h2
  rcases hzx with hs | ⟨he, ht⟩
  · exact (Q.lt_iff_not_le.mp hs) (Q.le_trans hyx hzy)
  · have heyx : Q.eqv y.score x.score :=
      Q.eqv_of_le_of_le (Q.le_trans hzy he.le) hyx
    have hezy : Q.eqv z.score y.score :=
      Q.eqv_of_le_of_le (Q.le_trans he.le hyx) hzy
    have t1 : ¬ y.tie < x.tie := fun hlt => h1 (Or.inr ⟨heyx, hlt⟩)
    have t2 : ¬ z.tie < y.tie := fun hlt => h2 (Or.inr ⟨hezy, hlt⟩)
    omega

/-- Indexing into the heap's backing vector (`self.data[i]`); total with a
junk default, always used in bounds. -/
def lget (l : List HeapItem) (i : Nat) : HeapItem := (l[i]?).getD default

/-- `self.data.swap(i, j)` / the hole moves of the sift loops. -/
def lswap (l : List HeapItem) (i j : Nat) : List HeapItem :=
  (l.set i (lget l j)).set j (lget l i)

/-- `BinaryHeap::sift_up` (Rust std): on the `Reverse` order the element at
`pos` moves up while strictly smaller than its parent.  The fuel is
structural only; `pos` strictly decreases, so any `fuel > pos` is enough. -/
def siftUp : Nat → List HeapItem → Nat → List HeapItem
  | 0, l, _ => l
  | fuel + 1, l, pos =>
    if pos = 0 then l
    else
      let parent := (pos - 1) / 2
      if HeapItem.ilt (lget l pos) (lget l parent) then
        siftUp fuel (lswap l pos parent) parent
      else l

/-- `BinaryHeap::push`: append, then sift up from the old length. -/
def hpush (l : List HeapItem) (x : HeapItem) : List HeapItem :=
  siftUp (l.length + 1) (l ++ [x]) l.length

/-- `BinaryHeap::sift_down_to_bottom` (Rust std), hole phase: the element
at `pos` is swapped with its smaller child (the right one on ties, per
`data[child] <= data[child + 1]` on the `Reverse` order) all the way to a
childless position, whose index is returned.  Any `fuel ≥ length` is
enough (`pos` strictly increases and stays below the length). -/
def siftDownBot : Nat → List HeapItem → Nat → List HeapItem × Nat
  | 0, l, pos => (l, pos)
  | fuel + 1, l, pos =>
    let child := 2 * pos + 1
    if child + 1 < l.length then
      let c := if HeapItem.ilt (lget l child) (lget l (child + 1)) then child
               else child + 1
      siftDownBot fuel (lswap l pos c) c
    else if child + 1 = l.length then (lswap l pos child, child)
    else (l, pos)

/-- `BinaryHeap::pop`: swap-remove the root (the minimum on the `Reverse`
order), move the last element to the root, sift it down to the bottom and
back up. -/
def hpop (l : List HeapItem) : Option HeapItem × List HeapItem :=
  match l with
  | [] => (none, [])
  | _ :: _ =>
    if l.length = 1 then (some (lget l 0), [])
    else
      let root := lget l 0
      let last := lget l (l.length - 1)
      let shrunk := (l.dropLast).set 0 last
      let sd := siftDownBot shrunk.length shrunk 0
      (some root, siftUp (sd.2 + 1) sd.1 sd.2)

/-- `Searcher::push_top_k` (`searcher.rs` 194–226): build the scored item,
push when below capacity, otherwise replace the minimum when the new score
is strictly greater. -/
def push_top_k (keep : Nat) (heap : List HeapItem) (tie : Nat)
    (entry : FileEntry) (match_score : Q) (mt : MatchType) : List HeapItem :=
  let item : HeapItem := ⟨final_score entry match_score mt, tie, entry, mt⟩
  if heap.length < keep then hpush heap item
  else
    match heap with
    | [] => heap
    | _ :: _ =>
      if (lget heap 0).score < item.score then hpush (hpop heap).2 item
      else heap

/-! ## The search loop (`searcher.rs` 115–192) -/

/-- `str::split_whitespace`, accumulator form; produces the non-empty
maximal runs of non-whitespace characters. -/
def splitWsGo (cur : List Char) : List Char → List (List Char)
  | [] => if cur = [] then [] else [cur.reverse]
  | c :: cs =>
    if c.isWhitespace then
      (if cur = [] then splitWsGo [] cs else cur.reverse :: splitWsGo [] cs)
    else splitWsGo (c :: cur) cs

def split_whitespace (s : List Char) : List (List Char) := splitWsGo [] s

/-- Per-entry body of the search loop (`searcher.rs` 134–186): path-only
match when `path_search` is set, otherwise name first, then path. -/
def searchStep (opts : SearchOptions) (keep : Nat)
    (tokens : List (List Char)) (heap : List HeapItem) (idx : Nat)
    (entry : FileEntry) : List HeapItem :=
  if opts.path_search then
    let haystack := if opts.case_sensitive then entry.path else entry.path_lower
    match tokens_score opts haystack.data tokens with
    | some s => push_top_k keep heap idx entry s MatchType.Path
    | none => heap
  else
    let nameHay := if opts.case_sensitive then entry.name else entry.name_lower
    match tokens_score opts nameHay.data tokens with
    | some s => push_top_k keep heap idx entry s MatchType.Name
    | none =>
      let pathHay := if opts.case_sensitive then entry.path else entry.path_lower
      match tokens_score opts pathHay.data tokens with
      | some s => push_top_k keep heap idx entry s MatchType.Path
      | none => heap

def searchLoop (opts : SearchOptions) (keep : Nat)
    (tokens : List (List Char)) :
    List FileEntry → Nat → List HeapItem → List HeapItem
  | [], _, heap => heap
  | e :: es, idx, heap =>
    searchLoop opts keep tokens es (idx + 1) (searchStep opts keep tokens heap idx e)

/-- The query tokens of `Searcher::search` (`searcher.rs` 124–132):
lowercase unless case-sensitive, split on whitespace, empties dropped. -/
def searchTokens (opts : SearchOptions) (pattern : String) : List (List Char) :=
  let sp := if opts.case_sensitive then pattern else lowercase_for_search pattern
  (split_whitespace sp.data).filter (fun t => t ≠ [])

/-- The final heap of `Searcher::search`, in backing-vector order
(what `heap.into_iter()` yields). -/
def searchHeap (opts : SearchOptions) (entries : List FileEntry)
    (pattern : String) : List HeapItem :=
  if pattern = "" then []
  else
    let keep := max opts.max_results 1
    let tokens := searchTokens opts pattern
    if tokens = [] then [] else searchLoop opts keep tokens entries 0 []

/-- Descending-score comparison of the final sort (`searcher.rs` 189):
`a` may precede `b` iff `b.score ≤ a.score`. -/
def scoreDescLE (a b : HeapItem) : Prop := b.score ≤ a.score

instance : DecidableRel scoreDescLE := fun a b =>
  inferInstanceAs (Decidable (b.score ≤ a.score))

/-- The ranked result items of `Searcher::search` (`searcher.rs` 188–191):
the heap's vector, stably sorted by descending score (`sort_by` is stable;
a stable insertion sort produces the same list).  The source maps items to
`SearchResult` before sorting; the comparator reads only the score, so
sorting the items first yields the same order. -/
def searchRanked (opts : SearchOptions) (entries : List FileEntry)
    (pattern : String) : List HeapItem :=
  List.insertionSort scoreDescLE (searchHeap opts entries pattern)

structure SearchResult where
  entry : FileEntry
  score : Q
  match_type : MatchType
deriving DecidableEq

instance {ε α : Type} [DecidableEq ε] [DecidableEq α] : DecidableEq (Except ε α) :=
  fun a b =>
    match a, b with
    | Except.error x, Except.error y =>
      if h : x = y then Decidable.isTrue (by rw [h])
      else Decidable.isFalse (fun hc => h (by injection hc))
    | Except.ok x, Except.ok y =>
      if h : x = y then Decidable.isTrue (by rw [h])
      else Decidable.isFalse (fun hc => h (by injection hc))
    | Except.error _, Except.ok _ => Decidable.isFalse (fun hc => Except.noConfusion hc)
    | Except.ok _, Except.error _ => Decidable.isFalse (fun hc => Except.noConfusion hc)

/-- `Searcher::search` (`searcher.rs` 115–192). -/
def Searcher.search (opts : SearchOptions) (entries : List FileEntry)
    (pattern : String) : List SearchResult :=
  (searchRanked opts entries pattern).map (fun it => ⟨it.entry, it.score, it.mtype⟩)

/-! ## Heap correctness

The standard binary-heap invariant on the backing vector, and the
behaviour of `push`/`pop` needed for the top-K claims: both preserve the
invariant and act on the contents as expected, and the root of a heap is
minimal. -/

theorem lget_eq_getElem {l : List HeapItem} {i : Nat} (h : i < l.length) :
    lget l i = l[i] := by
  simp [lget, List.getElem?_eq_getElem h]

theorem length_lswap (l : List HeapItem) (i j : Nat) :
    (lswap l i j).length = l.length := by
  simp [lswap]

theorem lget_lswap_snd {l : List HeapItem} {i j : Nat} (hj : j < l.length) :
    lget (lswap l i j) j = lget l i := by
  have hlen : j < (l.set i (lget l j)).length := by simpa using hj
  show ((l.set i (lget l j)).set j (lget l i))[j]?.getD default = lget l i
  rw [List.getElem?_set_self hlen]
  rfl

theorem lget_lswap_fst {l : List HeapItem} {i j : Nat} (hij : i ≠ j)
    (hi : i < l.length) : lget (lswap l i j) i = lget l j := by
  have hne : j ≠ i := fun h => hij h.symm
  show ((l.set i (lget l j)).set j (lget l i))[i]?.getD default = lget l j
  rw [List.getElem?_set_ne hne, List.getElem?_set_self hi]
  rfl

theorem lget_lswap_other {l : List HeapItem} {i j k : Nat} (hki : k ≠ i)
    (hkj : k ≠ j) : lget (lswap l i j) k = lget l k := by
  have h1 : j ≠ k := fun h => hkj h.symm
  have h2 : i ≠ k := fun h => hki h.symm
  show ((l.set i (lget l j)).set j (lget l i))[k]?.getD default = lget l k
  rw [List.getElem?_set_ne h1, List.getElem?_set_ne h2]
  rfl

theorem set_lget_self {l : List HeapItem} {i : Nat} (hi : i < l.length) :
    l.set i (lget l i) = l := by
  apply List.ext_getElem?
  intro k
  rcases eq_or_ne i k with rfl | hne
  · rw [List.getElem?_set_self hi, lget_eq_getElem hi,
      List.getElem?_eq_getElem hi]
  · exact List.getElem?_set_ne hne

theorem lget_cons_succ (b : HeapItem) (t : List HeapItem) (i : Nat) :
    lget (b :: t) (i + 1) = lget t i := by
  simp [lget]

theorem lget_set_ne {l : List HeapItem} {i j : Nat} (hij : i ≠ j)
    (x : HeapItem) : lget (l.set i x) j = lget l j := by
  show (l.set i x)[j]?.getD default = lget l j
  rw [List.getElem?_set_ne hij]
  rfl

/-- Counting in additive form: replacing the element at `i` removes one
occurrence of the old value and adds one of the new. -/
theorem count_set_lget (a x : HeapItem) :
    ∀ (l : List HeapItem) (i : Nat), i < l.length →
      List.count a (l.set i x) + (if lget l i = a then 1 else 0) =
        List.count a l + (if x = a then 1 else 0) := by
  intro l
  induction l with
  | nil => intro i hi; simp at hi
  | cons b t ih =>
    intro i hi
    cases i with
    | zero =>
      show List.count a (x :: t) + (if lget (b :: t) 0 = a then 1 else 0) = _
      have hb : lget (b :: t) 0 = b := by simp [lget]
      rw [hb, List.count_cons, List.count_cons]
      by_cases h1 : b = a <;> by_cases h2 : x = a <;>
        simp [h1, h2]
    | succ i =>
      have hi2 : i < t.length := by simpa using hi
      have hih := ih i hi2
      show List.count a (b :: t.set i x) + (if lget (b :: t) (i + 1) = a then 1 else 0) = _
      rw [lget_cons_succ, List.count_cons, List.count_cons]
      by_cases h1 : b = a <;> simp [h1] <;> omega

theorem lswap_perm {l : List HeapItem} {i j : Nat} (hi : i < l.length)
    (hj : j < l.length) : (lswap l i j).Perm l := by
  rcases eq_or_ne i j with rfl | hij
  · unfold lswap
    rw [set_lget_self hi, set_lget_self hi]
  · rw [List.perm_iff_count]
    intro a
    have hjlen : j < (l.set i (lget l j)).length := by simpa using hj
    have c1 := count_set_lget a (lget l j) l i hi
    have c2 := count_set_lget a (lget l i) (l.set i (lget l j)) j hjlen
    rw [lget_set_ne hij] at c2
    show List.count a ((l.set i (lget l j)).set j (lget l i)) = List.count a l
    by_cases hia : lget l i = a
    · by_cases hja : lget l j = a
      · rw [if_pos hia, if_pos hja] at c1
        rw [if_pos hja, if_pos hia] at c2
        omega
      · rw [if_pos hia, if_neg hja] at c1
        rw [if_neg hja, if_pos hia] at c2
        omega
    · by_cases hja : lget l j = a
      · rw [if_neg hia, if_pos hja] at c1
        rw [if_pos hja, if_neg hia] at c2
        omega
      · rw [if_neg hia, if_neg hja] at c1
        rw [if_neg hja, if_neg hia] at c2
        omega

theorem siftUp_length (fuel : Nat) :
    ∀ (l : List HeapItem) (pos : Nat), (siftUp fuel l pos).length = l.length := by
  induction fuel with
  | zero => intro l pos; rfl
  | succ fuel ih =>
    intro l pos
    unfold siftUp
    by_cases h0 : pos = 0
    · simp [h0]
    · simp only [if_neg h0]
      by_cases hlt : HeapItem.ilt (lget l pos) (lget l ((pos - 1) / 2))
      · rw [if_pos hlt, ih, length_lswap]
      · rw [if_neg hlt]

theorem siftUp_perm (fuel : Nat) :
    ∀ (l : List HeapItem) (pos : Nat), pos < l.length →
      (siftUp fuel l pos).Perm l := by
  induction fuel with
  | zero => intro l pos _; exact List.Perm.refl l
  | succ fuel ih =>
    intro l pos hpos
    unfold siftUp
    by_cases h0 : pos = 0
    · simp [h0]
    · simp only [if_neg h0]
      by_cases hlt : HeapItem.ilt (lget l pos) (lget l ((pos - 1) / 2))
      · rw [if_pos hlt]
        have hq : (pos - 1) / 2 < l.length := by omega
        refine (ih _ _ ?_).trans (lswap_perm hpos hq)
        rw [length_lswap]; omega
      · rw [if_neg hlt]

/-- The heap invariant of the backing vector: on the reversed order each
parent is `≤` its children, so the root is the minimal `HeapItem`. -/
def IsHeap (l : List HeapItem) : Prop :=
  ∀ i, 0 < i → i < l.length →
    HeapItem.ile (lget l ((i - 1) / 2)) (lget l i)

/-- State of the vector during `sift_up`: the invariant may fail only at
`pos`, and the children of `pos` dominate the parent of `pos`. -/
def IupInv (l : List HeapItem) (pos : Nat) : Prop :=
  (∀ i, 0 < i → i < l.length → i ≠ pos →
     HeapItem.ile (lget l ((i - 1) / 2)) (lget l i)) ∧
  (∀ i, i < l.length → 0 < pos → (i - 1) / 2 = pos →
     HeapItem.ile (lget l ((pos - 1) / 2)) (lget l i))

theorem siftUp_isHeap (fuel : Nat) :
    ∀ (l : List HeapItem) (pos : Nat), pos < l.length → pos < fuel →
      IupInv l pos → IsHeap (siftUp fuel l pos) := by
  induction fuel with
  | zero => intro l pos _ h2 _; omega
  | succ fuel ih =>
    intro l pos hpos hfuel hinv
    unfold siftUp
    by_cases h0 : pos = 0
    · subst h0
      simp only [if_pos rfl]
      intro i hi0 hilen
      exact hinv.1 i hi0 hilen (by omega)
    · simp only [if_neg h0]
      have hppos : 0 < pos := Nat.pos_of_ne_zero h0
      by_cases hlt : HeapItem.ilt (lget l pos) (lget l ((pos - 1) / 2))
      · rw [if_pos hlt]
        have hqlt : (pos - 1) / 2 < pos := by omega
        have hqlen : (pos - 1) / 2 < l.length := by omega
        have Vpos : lget (lswap l pos ((pos - 1) / 2)) pos = lget l ((pos - 1) / 2) :=
          lget_lswap_fst (by omega) hpos
        have Vq : lget (lswap l pos ((pos - 1) / 2)) ((pos - 1) / 2) = lget l pos :=
          lget_lswap_snd hqlen
        have Voth : ∀ k, k ≠ pos → k ≠ (pos - 1) / 2 →
            lget (lswap l pos ((pos - 1) / 2)) k = lget l k :=
          fun k h1 h2 => lget_lswap_other h1 h2
        refine ih _ ((pos - 1) / 2) (by rw [length_lswap]; omega) (by omega) ?_
        constructor
        · intro i hi0 hilen hiq
          rw [length_lswap] at hilen
          by_cases hipos : i = pos
          · rw [hipos, Vq, Vpos]
            exact HeapItem.ile_of_ilt hlt
          · by_cases hpip : (i - 1) / 2 = pos
            · rw [hpip, Vpos, Voth i hipos hiq]
              exact hinv.2 i hilen hppos hpip
            · by_cases hpiq : (i - 1) / 2 = (pos - 1) / 2
              · rw [hpiq, Vq, Voth i hipos hiq]
                have hbase := hinv.1 i hi0 hilen hipos
                rw [hpiq] at hbase
                exact HeapItem.ile_trans (HeapItem.ile_of_ilt hlt) hbase
              · rw [Voth _ hpip hpiq, Voth i hipos hiq]
                exact hinv.1 i hi0 hilen hipos
        · intro i hilen hq0 hpiq
          rw [length_lswap] at hilen
          have hgp1 : ((pos - 1) / 2 - 1) / 2 ≠ pos := by omega
          have hgp2 : ((pos - 1) / 2 - 1) / 2 ≠ (pos - 1) / 2 := by omega
          rw [Voth _ hgp1 hgp2]
          by_cases hipos : i = pos
          · rw [hipos, Vpos]
            exact hinv.1 ((pos - 1) / 2) hq0 hqlen (by omega)
          · have hiq : i ≠ (pos - 1) / 2 := by omega
            rw [Voth i hipos hiq]
            have hstep := hinv.1 i (by omega) hilen hipos
            rw [hpiq] at hstep
            exact HeapItem.ile_trans
              (hinv.1 ((pos - 1) / 2) hq0 hqlen (by omega)) hstep
      · rw [if_neg hlt]
        intro i hi0 hilen
        by_cases hipos : i = pos
        · subst hipos
          exact hlt
        · exact hinv.1 i hi0 hilen hipos

/-- The root of a heap is minimal (by induction along parent chains). -/
theorem root_ile (l : List HeapItem) (hheap : IsHeap l) :
    ∀ i, i < l.length → HeapItem.ile (lget l 0) (lget l i) := by
  intro i
  induction i using Nat.strong_induction_on with
  | _ i ih =>
    intro hi
    rcases Nat.eq_zero_or_pos i with rfl | hpos
    · exact HeapItem.ile_refl _
    · exact HeapItem.ile_trans (ih ((i - 1) / 2) (by omega) (by omega))
        (hheap i hpos hi)

theorem root_ile_of_mem (l : List HeapItem) (hheap : IsHeap l) {x : HeapItem}
    (hx : x ∈ l) : HeapItem.ile (lget l 0) x := by
  obtain ⟨i, hi, heq⟩ := List.mem_iff_getElem.mp hx
  rw [← heq, ← lget_eq_getElem hi]
  exact root_ile l hheap i hi

theorem lget_append_left {l : List HeapItem} {x : HeapItem} {i : Nat}
    (hi : i < l.length) : lget (l ++ [x]) i = lget l i := by
  show (l ++ [x])[i]?.getD default = lget l i
  rw [List.getElem?_append, if_pos hi]
  rfl

theorem hpush_length (l : List HeapItem) (x : HeapItem) :
    (hpush l x).length = l.length + 1 := by
  unfold hpush
  rw [siftUp_length]
  simp

theorem hpush_perm (l : List HeapItem) (x : HeapItem) :
    (hpush l x).Perm (x :: l) := by
  unfold hpush
  refine (siftUp_perm _ _ _ (by simp)).trans (List.perm_append_singleton x l)

theorem hpush_isHeap (l : List HeapItem) (x : HeapItem) (hheap : IsHeap l) :
    IsHeap (hpush l x) := by
  unfold hpush
  apply siftUp_isHeap (l.length + 1) (l ++ [x]) l.length (by simp) (by omega)
  constructor
  · intro i hi0 hilen hine
    have hil : i < l.length := by
      simp only [List.length_append, List.length_singleton] at hilen
      omega
    have hpil : (i - 1) / 2 < l.length := by omega
    rw [lget_append_left hil, lget_append_left hpil]
    exact hheap i hi0 hil
  · intro i hilen hpos hpi
    simp only [List.length_append, List.length_singleton] at hilen
    omega

/-- State of the vector in the hole phase of `sift_down_to_bottom`: the
invariant may fail at `pos` and between `pos` and its children. -/
def IdnInv (l : List HeapItem) (pos : Nat) : Prop :=
  (∀ i, 0 < i → i < l.length → i ≠ pos → (i - 1) / 2 ≠ pos →
     HeapItem.ile (lget l ((i - 1) / 2)) (lget l i)) ∧
  (∀ i, i < l.length → 0 < pos → (i - 1) / 2 = pos →
     HeapItem.ile (lget l ((pos - 1) / 2)) (lget l i))

theorem siftDownBot_spec (fuel : Nat) :
    ∀ (l : List HeapItem) (pos : Nat), pos < l.length →
      l.length ≤ fuel + pos → IdnInv l pos →
      ((siftDownBot fuel l pos).1).Perm l ∧
      ((siftDownBot fuel l pos).1).length = l.length ∧
      (siftDownBot fuel l pos).2 < l.length ∧
      IupInv (siftDownBot fuel l pos).1 (siftDownBot fuel l pos).2 := by
  induction fuel with
  | zero => intro l pos h1 h2 _; omega
  | succ fuel ih =>
    intro l pos hpos hfuel hinv
    by_cases hA : 2 * pos + 1 + 1 < l.length
    · have hred : siftDownBot (fuel + 1) l pos =
          siftDownBot fuel
            (lswap l pos
              (if HeapItem.ilt (lget l (2 * pos + 1)) (lget l (2 * pos + 2))
               then 2 * pos + 1 else 2 * pos + 2))
            (if HeapItem.ilt (lget l (2 * pos + 1)) (lget l (2 * pos + 2))
             then 2 * pos + 1 else 2 * pos + 2) := by
        simp only [siftDownBot]
        rw [if_pos hA]
      set c := if HeapItem.ilt (lget l (2 * pos + 1)) (lget l (2 * pos + 2))
               then 2 * pos + 1 else 2 * pos + 2 with hcdef
      have hcrange : c = 2 * pos + 1 ∨ c = 2 * pos + 2 := by
        rw [hcdef]
        split
        · exact Or.inl rfl
        · exact Or.inr rfl
      have hclen : c < l.length := by omega
      have hcpos : pos < c := by omega
      have hcq : (c - 1) / 2 = pos := by omega
      have hsel : ∀ s, (s = 2 * pos + 1 ∨ s = 2 * pos + 2) →
          HeapItem.ile (lget l c) (lget l s) := by
        intro s hs
        rw [hcdef]
        by_cases hch : HeapItem.ilt (lget l (2 * pos + 1)) (lget l (2 * pos + 2))
        · rw [if_pos hch]
          rcases hs with rfl | rfl
          · exact HeapItem.ile_refl _
          · exact HeapItem.ile_of_ilt hch
        · rw [if_neg hch]
          rcases hs with rfl | rfl
          · exact hch
          · exact HeapItem.ile_refl _
      have V1 : lget (lswap l pos c) pos = lget l c :=
        lget_lswap_fst (by omega) hpos
      have V2 : lget (lswap l pos c) c = lget l pos := lget_lswap_snd hclen
      have Voth : ∀ k, k ≠ pos → k ≠ c → lget (lswap l pos c) k = lget l k :=
        fun k h1 h2 => lget_lswap_other h1 h2
      have hstep : IdnInv (lswap l pos c) c := by
        constructor
        · intro i hi0 hilen hic hpic
          rw [length_lswap] at hilen
          by_cases hipos : i = pos
          · have hppos : 0 < pos := by omega
            have hp1 : (pos - 1) / 2 ≠ pos := by omega
            have hp2 : (pos - 1) / 2 ≠ c := by omega
            rw [hipos, Voth _ hp1 hp2, V1]
            exact hinv.2 c hclen hppos hcq
          · by_cases hpip : (i - 1) / 2 = pos
            · rw [hpip, V1, Voth i hipos hic]
              exact hsel i (by omega)
            · rw [Voth _ hpip hpic, Voth i hipos hic]
              exact hinv.1 i hi0 hilen hipos hpip
        · intro i hilen hc0 hpic
          rw [length_lswap] at hilen
          have hi_big : c < i := by omega
          have hipos : i ≠ pos := by omega
          have hic : i ≠ c := by omega
          rw [hcq, V1, Voth i hipos hic]
          have hx := hinv.1 i (by omega) hilen hipos (by omega)
          rw [hpic] at hx
          exact hx
      rw [hred]
      have hres := ih (lswap l pos c) c (by rw [length_lswap]; omega)
        (by rw [length_lswap]; omega) hstep
      rw [length_lswap] at hres
      exact ⟨hres.1.trans (lswap_perm hpos hclen), hres.2.1, hres.2.2.1,
        hres.2.2.2⟩
    · by_cases hB : 2 * pos + 1 + 1 = l.length
      · have hred : siftDownBot (fuel + 1) l pos =
            (lswap l pos (2 * pos + 1), 2 * pos + 1) := by
          simp only [siftDownBot]
          rw [if_neg hA, if_pos hB]
        have hclen : 2 * pos + 1 < l.length := by omega
        have V1 : lget (lswap l pos (2 * pos + 1)) pos = lget l (2 * pos + 1) :=
          lget_lswap_fst (by omega) hpos
        have V2 : lget (lswap l pos (2 * pos + 1)) (2 * pos + 1) = lget l pos :=
          lget_lswap_snd hclen
        have Voth : ∀ k, k ≠ pos → k ≠ 2 * pos + 1 →
            lget (lswap l pos (2 * pos + 1)) k = lget l k :=
          fun k h1 h2 => lget_lswap_other h1 h2
        have hfin : IupInv (lswap l pos (2 * pos + 1)) (2 * pos + 1) := by
          constructor
          · intro i hi0 hilen hic
            rw [length_lswap] at hilen
            by_cases hipos : i = pos
            · have hppos : 0 < pos := by omega
              have hp1 : (pos - 1) / 2 ≠ pos := by omega
              have hp2 : (pos - 1) / 2 ≠ 2 * pos + 1 := by omega
              rw [hipos, Voth _ hp1 hp2, V1]
              exact hinv.2 (2 * pos + 1) hclen hppos (by omega)
            · by_cases hpip : (i - 1) / 2 = pos
              · omega
              · have hpic : (i - 1) / 2 ≠ 2 * pos + 1 := by omega
                rw [Voth _ hpip hpic, Voth i hipos hic]
                exact hinv.1 i hi0 hilen hipos hpip
          · intro i hilen hc0 hpic
            rw [length_lswap] at hilen
            omega
        rw [hred]
        exact ⟨lswap_perm hpos hclen, length_lswap l pos (2 * pos + 1),
          show 2 * pos + 1 < l.length by omega, hfin⟩
      · have hred : siftDownBot (fuel + 1) l pos = (l, pos) := by
          simp only [siftDownBot]
          rw [if_neg hA, if_neg hB]
        have hfin : IupInv l pos := by
          constructor
          · intro i hi0 hilen hipos
            by_cases hpip : (i - 1) / 2 = pos
            · omega
            · exact hinv.1 i hi0 hilen hipos hpip
          · intro i hilen hpos0 hpip
            omega
        rw [hred]
        exact ⟨List.Perm.refl l, rfl, hpos, hfin⟩

/-- Rebalancing after the root swap of `pop`: a vector whose heap relation
holds everywhere except below the root is restored to a heap with the same
contents. -/
theorem popRebalance_spec (m : List HeapItem) (hm : 0 < m.length)
    (hexr : ∀ i, 0 < i → i < m.length → (i - 1) / 2 ≠ 0 →
      HeapItem.ile (lget m ((i - 1) / 2)) (lget m i)) :
    (siftUp ((siftDownBot m.length m 0).2 + 1) (siftDownBot m.length m 0).1
        (siftDownBot m.length m 0).2).Perm m ∧
    (siftUp ((siftDownBot m.length m 0).2 + 1) (siftDownBot m.length m 0).1
        (siftDownBot m.length m 0).2).length = m.length ∧
    IsHeap (siftUp ((siftDownBot m.length m 0).2 + 1)
      (siftDownBot m.length m 0).1 (siftDownBot m.length m 0).2) := by
  have hidn : IdnInv m 0 := by
    constructor
    · intro i hi0 hilen hip hpip
      exact hexr i hi0 hilen hpip
    · intro i _ h0 _
      omega
  have hsd := siftDownBot_spec m.length m 0 hm (by omega) hidn
  refine ⟨?_, ?_, ?_⟩
  · exact (siftUp_perm _ _ _ (by omega)).trans hsd.1
  · rw [siftUp_length, hsd.2.1]
  · exact siftUp_isHeap _ _ _ (by omega) (by omega) hsd.2.2.2

/-- Behaviour of `BinaryHeap::pop` on a non-empty heap: it returns the
root (the minimal item), the remaining vector is one shorter, holds the
other items, and is again a heap. -/
theorem hpop_spec (l : List HeapItem) (hne : 0 < l.length)
    (hheap : IsHeap l) :
    (hpop l).1 = some (lget l 0) ∧
    ((hpop l).2).length + 1 = l.length ∧
    (lget l 0 :: (hpop l).2).Perm l ∧
    IsHeap (hpop l).2 := by
  obtain ⟨a, t, rfl⟩ : ∃ a t, l = a :: t := by
    cases l with
    | nil => simp at hne
    | cons a t => exact ⟨a, t, rfl⟩
  cases t with
  | nil =>
    have hred : hpop [a] = (some (lget [a] 0), []) := rfl
    rw [hred]
    have ha0 : lget [a] 0 = a := rfl
    refine ⟨rfl, rfl, by rw [ha0], ?_⟩
    intro i h0 hlen
    simp at hlen
  | cons b u =>
    have hlen1 : (a :: b :: u).length ≠ 1 := by simp
    have hred : hpop (a :: b :: u) = (some (lget (a :: b :: u) 0),
        siftUp ((siftDownBot
            (((a :: b :: u).dropLast).set 0
              (lget (a :: b :: u) ((a :: b :: u).length - 1))).length
            (((a :: b :: u).dropLast).set 0
              (lget (a :: b :: u) ((a :: b :: u).length - 1))) 0).2 + 1)
          (siftDownBot
            (((a :: b :: u).dropLast).set 0
              (lget (a :: b :: u) ((a :: b :: u).length - 1))).length
            (((a :: b :: u).dropLast).set 0
              (lget (a :: b :: u) ((a :: b :: u).length - 1))) 0).1
          (siftDownBot
            (((a :: b :: u).dropLast).set 0
              (lget (a :: b :: u) ((a :: b :: u).length - 1))).length
            (((a :: b :: u).dropLast).set 0
              (lget (a :: b :: u) ((a :: b :: u).length - 1))) 0).2) := by
      simp only [hpop]
      rw [if_neg hlen1]
    set shr := ((a :: b :: u).dropLast).set 0
      (lget (a :: b :: u) ((a :: b :: u).length - 1)) with hshr
    have hshrlen : shr.length = u.length + 1 := by
      rw [hshr]
      simp
    have hv : ∀ k, 0 < k → k < (a :: b :: u).length - 1 →
        lget shr k = lget (a :: b :: u) k := by
      intro k hk0 hklt
      rw [hshr, lget_set_ne (by omega)]
      show ((a :: b :: u).dropLast)[k]?.getD default = lget (a :: b :: u) k
      rw [List.dropLast_eq_take, List.getElem?_take, if_pos hklt]
      rfl
    have hexr : ∀ i, 0 < i → i < shr.length → (i - 1) / 2 ≠ 0 →
        HeapItem.ile (lget shr ((i - 1) / 2)) (lget shr i) := by
      intro i hi0 hilen hpar
      rw [hshrlen] at hilen
      have hIlt : i < (a :: b :: u).length - 1 := by
        simp only [List.length_cons]
        omega
      rw [hv _ (by omega) (by omega), hv i hi0 hIlt]
      exact hheap i hi0 (by simp only [List.length_cons]; omega)
    have hreb := popRebalance_spec shr (by omega) hexr
    have ha0 : lget (a :: b :: u) 0 = a := rfl
    have hbu : (b :: u) ≠ [] := by simp
    have hlast : lget (a :: b :: u) ((a :: b :: u).length - 1) =
        (b :: u).getLast hbu := by
      have hidx : (a :: b :: u).length - 1 = u.length + 1 := by simp
      rw [hidx, lget_cons_succ, List.getLast_eq_getElem,
        lget_eq_getElem (show u.length < (b :: u).length by simp)]
      simp
    have hshr2 : shr = lget (a :: b :: u) ((a :: b :: u).length - 1) ::
        (b :: u).dropLast := by
      rw [hshr]
      simp
    rw [hred]
    refine ⟨rfl, ?_, ?_, hreb.2.2⟩
    · rw [hreb.2.1, hshrlen]
      simp
    · refine (List.Perm.cons (lget (a :: b :: u) 0) hreb.1).trans ?_
      rw [ha0, hshr2, hlast]
      refine List.Perm.cons a ?_
      have hp1 : ((b :: u).dropLast ++ [(b :: u).getLast hbu]).Perm
          ((b :: u).getLast hbu :: (b :: u).dropLast) :=
        List.perm_append_singleton _ _
      have hp2 := hp1.symm
      rw [List.dropLast_append_getLast hbu] at hp2
      exact hp2

/-! ## Exact top-K selection

The candidate score an entry would enter the heap with, and the invariant
of the search loop: the heap always holds the best `keep` candidates seen
so far (no discarded candidate outscores a kept one). -/

/-- The final score the search loop gives an entry, `none` when the entry
does not match (mirrors the branch structure of `searcher.rs` 134–186). -/
def candidateScore (opts : SearchOptions) (tokens : List (List Char))
    (entry : FileEntry) : Option Q :=
  if opts.path_search then
    (tokens_score opts
        (if opts.case_sensitive then entry.path else entry.path_lower).data
        tokens).map (fun s => final_score entry s MatchType.Path)
  else
    match tokens_score opts
        (if opts.case_sensitive then entry.name else entry.name_lower).data
        tokens with
    | some s => some (final_score entry s MatchType.Name)
    | none =>
      (tokens_score opts
          (if opts.case_sensitive then entry.path else entry.path_lower).data
          tokens).map (fun s => final_score entry s MatchType.Path)

theorem searchStep_cases (opts : SearchOptions) (keep : Nat)
    (tokens : List (List Char)) (h : List HeapItem) (idx : Nat)
    (e : FileEntry) :
    (candidateScore opts tokens e = none ∧
      searchStep opts keep tokens h idx e = h) ∨
    (∃ s mt, searchStep opts keep tokens h idx e = push_top_k keep h idx e s mt ∧
      candidateScore opts tokens e = some (final_score e s mt)) := by
  unfold searchStep candidateScore
  by_cases hps : opts.path_search
  · simp only [if_pos hps]
    cases htp : tokens_score opts
        (if opts.case_sensitive then e.path else e.path_lower).data tokens with
    | none => exact Or.inl ⟨rfl, rfl⟩
    | some s => exact Or.inr ⟨s, MatchType.Path, rfl, rfl⟩
  · simp only [if_neg hps]
    cases htn : tokens_score opts
        (if opts.case_sensitive then e.name else e.name_lower).data tokens with
    | some s => exact Or.inr ⟨s, MatchType.Name, rfl, rfl⟩
    | none =>
      cases htp : tokens_score opts
          (if opts.case_sensitive then e.path else e.path_lower).data tokens with
      | none => exact Or.inl ⟨rfl, rfl⟩
      | some s => exact Or.inr ⟨s, MatchType.Path, rfl, rfl⟩

theorem push_top_k_spec (keep : Nat) (h : List HeapItem) (tie : Nat)
    (e : FileEntry) (s : Q) (mt : MatchType) (hkeep : 0 < keep)
    (hheap : IsHeap h) (hlen : h.length ≤ keep) :
    IsHeap (push_top_k keep h tie e s mt) ∧
    (push_top_k keep h tie e s mt).length ≤ keep ∧
    ((h.length < keep ∧
       (push_top_k keep h tie e s mt).Perm
         (⟨final_score e s mt, tie, e, mt⟩ :: h)) ∨
     (h.length = keep ∧ ¬ (lget h 0).score < final_score e s mt ∧
       push_top_k keep h tie e s mt = h) ∨
     (h.length = keep ∧ (lget h 0).score < final_score e s mt ∧
       (push_top_k keep h tie e s mt).Perm
         (⟨final_score e s mt, tie, e, mt⟩ :: (hpop h).2) ∧
       (lget h 0 :: (hpop h).2).Perm h ∧
       ((hpop h).2).length + 1 = h.length ∧ IsHeap (hpop h).2 ∧
       (push_top_k keep h tie e s mt).length = keep)) := by
  by_cases hfull : h.length < keep
  · have hred : push_top_k keep h tie e s mt =
        hpush h ⟨final_score e s mt, tie, e, mt⟩ := by
      unfold push_top_k
      rw [if_pos hfull]
    rw [hred]
    refine ⟨hpush_isHeap h _ hheap, ?_, Or.inl ⟨hfull, hpush_perm h _⟩⟩
    rw [hpush_length]
    omega
  · have heq : h.length = keep := Nat.le_antisymm hlen (Nat.le_of_not_lt hfull)
    have hne : 0 < h.length := by omega
    have hpop := hpop_spec h hne hheap
    by_cases hroot : (lget h 0).score < final_score e s mt
    · have hred : push_top_k keep h tie e s mt =
          hpush (RustSearch.hpop h).2 ⟨final_score e s mt, tie, e, mt⟩ := by
        unfold push_top_k
        rw [if_neg hfull]
        cases h with
        | nil => simp at hne
        | cons hd tl => rw [if_pos hroot]
      rw [hred]
      have hlen2 : (hpush (RustSearch.hpop h).2
          ⟨final_score e s mt, tie, e, mt⟩).length = keep := by
        rw [hpush_length]
        omega
      exact ⟨hpush_isHeap _ _ hpop.2.2.2, by omega,
        Or.inr (Or.inr ⟨heq, hroot, hpush_perm _ _, hpop.2.2.1, hpop.2.1,
          hpop.2.2.2, hlen2⟩)⟩
    · have hred : push_top_k keep h tie e s mt = h := by
        unfold push_top_k
        rw [if_neg hfull]
        cases h with
        | nil => simp at hne
        | cons hd tl => rw [if_neg hroot]
      rw [hred]
      exact ⟨hheap, hlen, Or.inr (Or.inl ⟨heq, hroot, rfl⟩)⟩

/-- Main invariant of the search loop: the heap stays a heap of at most
`keep` items; a lower bound on all kept scores is preserved once the heap
is full; a present item that ends up absent is dominated by everything
kept; and any candidate from the remaining entries that ends up absent is
dominated by everything kept. -/
theorem searchLoop_inv (opts : SearchOptions) (keep : Nat)
    (tokens : List (List Char)) (hkeep : 0 < keep) :
    ∀ (es : List FileEntry) (idx : Nat) (h : List HeapItem),
      IsHeap h → h.length ≤ keep →
      IsHeap (searchLoop opts keep tokens es idx h) ∧
      (searchLoop opts keep tokens es idx h).length ≤ keep ∧
      (∀ s : Q, h.length = keep → (∀ it ∈ h, s ≤ it.score) →
        (searchLoop opts keep tokens es idx h).length = keep ∧
        ∀ it ∈ searchLoop opts keep tokens es idx h, s ≤ it.score) ∧
      (∀ x ∈ h,
        (∀ it ∈ searchLoop opts keep tokens es idx h, it.tie ≠ x.tie) →
        ∀ it ∈ searchLoop opts keep tokens es idx h, x.score ≤ it.score) ∧
      (∀ off e s, es[off]? = some e →
        candidateScore opts tokens e = some s →
        (∀ it ∈ searchLoop opts keep tokens es idx h, it.tie ≠ idx + off) →
        ∀ it ∈ searchLoop opts keep tokens es idx h, s ≤ it.score) := by
  intro es
  induction es with
  | nil =>
    intro idx h hheap hlen
    refine ⟨hheap, hlen, fun s hfull hdom => ⟨hfull, hdom⟩, ?_, ?_⟩
    · intro x hx hni it hit
      exact absurd rfl (hni x hx)
    · intro off e s hoff
      simp at hoff
  | cons e rest ih =>
    intro idx h hheap hlen
    have hloopred : searchLoop opts keep tokens (e :: rest) idx h =
        searchLoop opts keep tokens rest (idx + 1)
          (searchStep opts keep tokens h idx e) := rfl
    rw [hloopred]
    rcases searchStep_cases opts keep tokens h idx e with
      ⟨hcnone, hstepeq⟩ | ⟨s, mt, hstepeq, hcsome⟩
    · rw [hstepeq]
      have IH := ih (idx + 1) h hheap hlen
      refine ⟨IH.1, IH.2.1, IH.2.2.1, IH.2.2.2.1, ?_⟩
      intro off e0 s0 hoff hc hni
      cases off with
      | zero =>
        rw [List.getElem?_cons_zero] at hoff
        have he0 : e = e0 := by injection hoff
        rw [← he0, hcnone] at hc
        exact absurd hc (by simp)
      | succ off =>
        rw [List.getElem?_cons_succ] at hoff
        have harith : idx + (off + 1) = (idx + 1) + off := by omega
        rw [harith] at hni
        exact IH.2.2.2.2 off e0 s0 hoff hc hni
    · have hpts := push_top_k_spec keep h idx e s mt hkeep hheap hlen
      rcases hpts.2.2 with ⟨hnf, hperm⟩ | ⟨hfull, hroot, heqh⟩ |
        ⟨hfull, hroot, hperm, hpopperm, hpoplen, hpopheap, hlen2⟩
      · -- below capacity: plain push
        rw [hstepeq]
        have IH := ih (idx + 1) (push_top_k keep h idx e s mt) hpts.1 hpts.2.1
        have hmem : ∀ x, x ∈ h → x ∈ push_top_k keep h idx e s mt := by
          intro x hx
          exact hperm.mem_iff.mpr (List.mem_cons_of_mem _ hx)
        have hmemitem : (⟨final_score e s mt, idx, e, mt⟩ : HeapItem) ∈
            push_top_k keep h idx e s mt :=
          hperm.mem_iff.mpr (List.mem_cons_self _ _)
        refine ⟨IH.1, IH.2.1, ?_, ?_, ?_⟩
        · intro s0 hfull0
          omega
        · intro x hx hni
          exact IH.2.2.2.1 x (hmem x hx) hni
        · intro off e0 s0 hoff hc hni
          cases off with
          | zero =>
            rw [List.getElem?_cons_zero] at hoff
            have he0 : e = e0 := by injection hoff
            rw [← he0, hcsome] at hc
            have hs0 : final_score e s mt = s0 := Option.some.inj hc
            rw [Nat.add_zero] at hni
            have := IH.2.2.2.1 ⟨final_score e s mt, idx, e, mt⟩ hmemitem hni
            rw [← hs0]
            exact this
          | succ off =>
            rw [List.getElem?_cons_succ] at hoff
            have harith : idx + (off + 1) = (idx + 1) + off := by omega
            rw [harith] at hni
            exact IH.2.2.2.2 off e0 s0 hoff hc hni
      · -- full, new candidate does not beat the minimum: heap unchanged
        rw [hstepeq, heqh]
        have IH := ih (idx + 1) h hheap hlen
        have hdomfs : ∀ y ∈ h, final_score e s mt ≤ y.score := by
          intro y hy
          exact Q.le_trans (Q.le_of_not_lt hroot)
            (HeapItem.ile_score (root_ile_of_mem h hheap hy))
        refine ⟨IH.1, IH.2.1, IH.2.2.1, IH.2.2.2.1, ?_⟩
        intro off e0 s0 hoff hc hni
        cases off with
        | zero =>
          rw [List.getElem?_cons_zero] at hoff
          have he0 : e = e0 := by injection hoff
          rw [← he0, hcsome] at hc
          have hs0 : final_score e s mt = s0 := Option.some.inj hc
          rw [← hs0]
          exact (IH.2.2.1 (final_score e s mt) hfull hdomfs).2
        | succ off =>
          rw [List.getElem?_cons_succ] at hoff
          have harith : idx + (off + 1) = (idx + 1) + off := by omega
          rw [harith] at hni
          exact IH.2.2.2.2 off e0 s0 hoff hc hni
      · -- full, new candidate replaces the minimum
        rw [hstepeq]
        have IH := ih (idx + 1) (push_top_k keep h idx e s mt) hpts.1 hpts.2.1
        have hmemH2 : ∀ x, x ∈ push_top_k keep h idx e s mt ↔
            x = ⟨final_score e s mt, idx, e, mt⟩ ∨ x ∈ (hpop h).2 := by
          intro x
          rw [hperm.mem_iff, List.mem_cons]
        have hmemh : ∀ y, y ∈ h ↔ y = lget h 0 ∨ y ∈ (hpop h).2 := by
          intro y
          rw [← hpopperm.mem_iff, List.mem_cons]
        have hpop2h : ∀ y, y ∈ (hpop h).2 → y ∈ h := by
          intro y hy
          exact (hmemh y).mpr (Or.inr hy)
        have hrootmem : lget h 0 ∈ h := (hmemh _).mpr (Or.inl rfl)
        have hdomH2root : ∀ it ∈ push_top_k keep h idx e s mt,
            (lget h 0).score ≤ it.score := by
          intro it hit
          rcases (hmemH2 it).mp hit with rfl | hit2
          · exact Q.le_of_lt hroot
          · exact HeapItem.ile_score (root_ile_of_mem h hheap (hpop2h it hit2))
        refine ⟨IH.1, IH.2.1, ?_, ?_, ?_⟩
        · intro s0 hfull0 hdom
          have hdomH2 : ∀ it ∈ push_top_k keep h idx e s mt, s0 ≤ it.score := by
            intro it hit
            rcases (hmemH2 it).mp hit with rfl | hit2
            · exact Q.le_trans (hdom _ hrootmem) (Q.le_of_lt hroot)
            · exact hdom it (hpop2h it hit2)
          exact IH.2.2.1 s0 hlen2 hdomH2
        · intro x hx hni
          rcases (hmemh x).mp hx with rfl | hx2
          · exact fun it hit =>
              (IH.2.2.1 (lget h 0).score hlen2 hdomH2root).2 it hit
          · exact IH.2.2.2.1 x ((hmemH2 x).mpr (Or.inr hx2)) hni
        · intro off e0 s0 hoff hc hni
          cases off with
          | zero =>
            rw [List.getElem?_cons_zero] at hoff
            have he0 : e = e0 := by injection hoff
            rw [← he0, hcsome] at hc
            have hs0 : final_score e s mt = s0 := Option.some.inj hc
            rw [Nat.add_zero] at hni
            have hmemitem : (⟨final_score e s mt, idx, e, mt⟩ : HeapItem) ∈
                push_top_k keep h idx e s mt :=
              (hmemH2 _).mpr (Or.inl rfl)
            have := IH.2.2.2.1 ⟨final_score e s mt, idx, e, mt⟩ hmemitem hni
            rw [← hs0]
            exact this
          | succ off =>
            rw [List.getElem?_cons_succ] at hoff
            have harith : idx + (off + 1) = (idx + 1) + off := by omega
            rw [harith] at hni
            exact IH.2.2.2.2 off e0 s0 hoff hc hni

/-! ## Cache codec (`indexer.rs` 11–14, 61–137, 278–339, 569–616)

The compact v2 on-disk format.  The byte assembly of header plus
`bincode` varint payload is the external serialisation library; the codec
is modelled at the structured level load/save actually exchange: header
fields plus the list of `DiskEntryV2` records. -/

def CACHE_MAGIC : List Nat := [82, 83, 73, 88]

def CACHE_V2 : Nat := 2

def CACHE_ENCODING_VARINT : Nat := 1

structure DiskEntryV2 where
  path : String
  size : Nat
  modified_ms : Nat
  flags : Nat
deriving DecidableEq

/-- `DiskEntryV2::from_entry` / `DiskEntryV2Ref::from_entry`
(`indexer.rs` 87–120): bit 0 = directory, bit 1 = hidden. -/
def DiskEntryV2.from_entry (entry : FileEntry) : DiskEntryV2 :=
  { path := entry.path, size := entry.size, modified_ms := entry.modified_ms,
    flags := (if entry.is_dir then 1 else 0) ||| (if entry.is_hidden then 2 else 0) }

/-- `file_name_from_normalized_path` (`indexer.rs` 606–616): last
`/`-separated segment; empty for trailing-slash paths; on a leading empty
segment the next one (Rust `rsplit` semantics). -/
def file_name_from_normalized_path (path : String) : String :=
  if path.data.getLast? = some '/' then ""
  else
    match (List.splitOn '/' path.data).reverse with
    | [] => ""
    | [] :: rest => ⟨rest.headD []⟩
    | name :: _ => ⟨name⟩

/-- `DiskEntryV2::to_entry` (`indexer.rs` 122–137): name and lowercase
keys recomputed from the stored path.  The cache stores no identity
fields; per the data model (§3) `frn = 0` means "unknown", and the struct
update in `indexer.rs` leaves `drive`/`frn`/`parent_frn` defaulted. -/
def DiskEntryV2.to_entry (d : DiskEntryV2) : FileEntry :=
  let name := file_name_from_normalized_path d.path
  { name := name,
    name_lower := lowercase_for_search name,
    path := d.path,
    path_lower := lowercase_for_search d.path,
    drive := 0, frn := 0, parent_frn := 0,
    size := d.size,
    modified_ms := d.modified_ms,
    is_dir := d.flags &&& 1 ≠ 0,
    is_hidden := d.flags &&& 2 ≠ 0 }

/-- The structured content of a v2 cache file: `RSIX(4) + version(u8) +
encoding(u8) + reserved(u16) + bincode(payload)` (`indexer.rs` 318). -/
structure CacheFileV2 where
  magic : List Nat
  version : Nat
  encoding : Nat
  payload : List DiskEntryV2
deriving DecidableEq

inductive CacheError where
  | badMagic
  | badVersion
  | badEncoding
deriving DecidableEq

/-- `FileIndexer::save_cache` (`indexer.rs` 312–339), at the structured
level: header constants plus one `DiskEntryV2` per entry, in order. -/
def save_cache (entries : List FileEntry) : CacheFileV2 :=
  { magic := CACHE_MAGIC, version := CACHE_V2,
    encoding := CACHE_ENCODING_VARINT,
    payload := entries.map DiskEntryV2.from_entry }

/-- `load_cache_v2` (`indexer.rs` 569–604): header validation, then one
`to_entry` per record. -/
def load_cache_v2 (f : CacheFileV2) : Except CacheError (List FileEntry) :=
  if f.magic ≠ CACHE_MAGIC then Except.error CacheError.badMagic
  else if f.version ≠ CACHE_V2 then Except.error CacheError.badVersion
  else if f.encoding ≠ CACHE_ENCODING_VARINT then Except.error CacheError.badEncoding
  else Except.ok (f.payload.map DiskEntryV2.to_entry)

/-! ## USN journal incremental sync (`windows_usn.rs`)

Machine integers (`u64` frns, `DWORD` reasons/attrs) are modelled as
`Nat`; none of the modelled operations can overflow.  `i64` USNs are
`Int`.  `HashMap<u64, usize>` is an association list with unique keys:
`mapInsert` removes any existing binding first, matching map semantics.
`UsnDriveState` is imported by `windows_usn.rs` from `indexer::*` but its
declaration is not part of the shipped sources; its fields are
reconstructed from the construction sites (`windows_usn.rs` 167–172 and
300–305): `drive: u8`, `journal_id: u64`, `root_frn: u64`,
`last_usn: i64`. -/

def USN_REASON_FILE_CREATE : Nat := 0x100

def USN_REASON_FILE_DELETE : Nat := 0x200

def USN_REASON_RENAME_OLD_NAME : Nat := 0x1000

def USN_REASON_RENAME_NEW_NAME : Nat := 0x2000

def FILE_ATTRIBUTE_DIRECTORY : Nat := 0x10

def FILE_ATTRIBUTE_HIDDEN : Nat := 0x2

def FILE_ATTRIBUTE_SYSTEM : Nat := 0x4

structure UsnDriveState where
  drive : Nat
  journal_id : Nat
  root_frn : Nat
  last_usn : Int
deriving DecidableEq

/-- `UsnEvent` (`windows_usn.rs` 86–92): one decoded v2 journal record. -/
structure UsnEvent where
  frn : Nat
  parent_frn : Nat
  attrs : Nat
  reason : Nat
  name : String
deriving DecidableEq

/-- The observable state of one volume's USN journal as the
`DeviceIoControl` read loop in `read_usn_events` exposes it: the current
journal identifier, the next USN cursor, and the already-decoded valid v2
records after `state.last_usn`.  Byte-level record framing (§9) is the
kernel's side of the boundary. -/
structure VolumeJournal where
  journal_id : Nat
  next_usn : Int
  records : List UsnEvent
deriving DecidableEq

inductive UsnSyncError where
  | journalInvalidated
  | changeVolumeExceeded
deriving DecidableEq

/-- The per-record filter of `read_usn_events` (`windows_usn.rs`
398–459): keep only create/delete/rename reasons, drop pure
old-name records, drop the volume root, drop empty names, and fail once
more than 500 000 events accumulate. -/
def collectUsnEvents (root_frn : Nat) :
    List UsnEvent → List UsnEvent → Except UsnSyncError (List UsnEvent)
  | [], acc => Except.ok acc.reverse
  | r :: rs, acc =>
    if r.reason &&& (USN_REASON_FILE_CREATE ||| USN_REASON_FILE_DELETE |||
        USN_REASON_RENAME_NEW_NAME ||| USN_REASON_RENAME_OLD_NAME) = 0 then
      collectUsnEvents root_frn rs acc
    else if r.reason &&& USN_REASON_RENAME_OLD_NAME ≠ 0 ∧
        r.reason &&& USN_REASON_RENAME_NEW_NAME = 0 then
      collectUsnEvents root_frn rs acc
    else if r.frn = root_frn then
      collectUsnEvents root_frn rs acc
    else if r.name = "" then
      collectUsnEvents root_frn rs acc
    else if 500000 < acc.length + 1 then
      Except.error UsnSyncError.changeVolumeExceeded
    else
      collectUsnEvents root_frn rs (r :: acc)

/-- `read_usn_events` (`windows_usn.rs` 309–470).  The journal-id check
precedes any read; on a match the loop advances `state.last_usn` to the
journal's next USN before record parsing, so the cursor moves even when
the event cap aborts the read. -/
def read_usn_events (vol : VolumeJournal) (state : UsnDriveState) :
    Except UsnSyncError (List UsnEvent) × UsnDriveState :=
  if vol.journal_id ≠ state.journal_id then
    (Except.error UsnSyncError.journalInvalidated, state)
  else
    (collectUsnEvents state.root_frn vol.records [],
     { state with last_usn := vol.next_usn })

/-- Association-list map: drop every binding of key `k`. -/
def mapRemove (m : List (Nat × Nat)) (k : Nat) : List (Nat × Nat) :=
  m.filter (fun p => p.1 != k)

/-- Association-list map: bind `k` to `v`, replacing any prior binding. -/
def mapInsert (m : List (Nat × Nat)) (k v : Nat) : List (Nat × Nat) :=
  (k, v) :: mapRemove m k

/-- The `frn_to_idx` construction of `apply_events_for_drive`
(`windows_usn.rs` 480–485): index every same-drive entry with a nonzero
frn. -/
def buildFrnMap (entries : List FileEntry) (drive : Nat) : List (Nat × Nat) :=
  entries.enum.foldl
    (fun m p => if p.2.drive = drive ∧ p.2.frn ≠ 0 then mapInsert m p.2.frn p.1 else m)
    []

/-- Total accessor for `entries[idx]`, mirroring the in-bounds indexing
of the Rust code (callers establish `idx < entries.length`). -/
def entryAt (entries : List FileEntry) (idx : Nat) : FileEntry :=
  (entries[idx]?).getD default

/-- `Vec::swap_remove(idx)`: move the last element into slot `idx` and
shrink by one (the slot is simply popped when it is the last). -/
def swapRemoveAt (entries : List FileEntry) (idx : Nat) : List FileEntry :=
  if idx + 1 = entries.length then entries.dropLast
  else entries.dropLast.set idx (entryAt entries (entries.length - 1))

/-- `remove_entry_by_idx` (`windows_usn.rs` 620–635): swap-remove the
entry, unmap its frn, and remap the swapped-in entry's frn to `idx`. -/
def remove_entry_by_idx (entries : List FileEntry) (idx : Nat)
    (frn_to_idx : List (Nat × Nat)) : List FileEntry × List (Nat × Nat) :=
  let removed := entryAt entries idx
  let entries2 := swapRemoveAt entries idx
  let m1 := if removed.frn ≠ 0 then mapRemove frn_to_idx removed.frn else frn_to_idx
  let m2 :=
    if idx < entries2.length then
      if (entryAt entries2 idx).frn ≠ 0 then mapInsert m1 (entryAt entries2 idx).frn idx
      else m1
    else m1
  (entries2, m2)

/-- The scan of `remove_entries_by_prefix` (`windows_usn.rs` 637–651,
the name ends in a reserved suffix here): advance over non-matching
entries, swap-remove matching ones without advancing.  `fuel` bounds the
iteration count; `entries.length - i + 1` steps always suffice because
every step either removes an entry or advances `i`. -/
def removeEntriesLoop (drive : Nat) (pre : String) :
    Nat → List FileEntry → Nat → List (Nat × Nat) → List FileEntry × List (Nat × Nat)
  | 0, entries, _, m => (entries, m)
  | fuel + 1, entries, i, m =>
    if i < entries.length then
      if (entryAt entries i).drive = drive ∧ pre.isPrefixOf (entryAt entries i).path then
        let r := remove_entry_by_idx entries i m
        removeEntriesLoop drive pre fuel r.1 i r.2
      else removeEntriesLoop drive pre fuel entries (i + 1) m
    else (entries, m)

/-- `remove_entries_by_prefix` (`windows_usn.rs` 637–651) with the fuel
instantiated generously. -/
def removeEntriesBelow (entries : List FileEntry) (drive : Nat) (pre : String)
    (m : List (Nat × Nat)) : List FileEntry × List (Nat × Nat) :=
  removeEntriesLoop drive pre (entries.length + 1) entries 0 m

/-- `update_entries_prefix` (`windows_usn.rs` 653–665, the name ends in
a reserved suffix here): rewrite `fromPre` to `toPre` at the front of
every same-drive matching path.  `String.drop` counts characters while
Rust slices bytes at `from_prefix.len()`; since `fromPre` is a prefix of
the path, both drop exactly that prefix. -/
def updateEntriesBelow (entries : List FileEntry) (drive : Nat)
    (fromPre toPre : String) : List FileEntry :=
  entries.map (fun e =>
    if e.drive = drive ∧ fromPre.isPrefixOf e.path then
      let newPath := toPre ++ e.path.drop fromPre.length
      { e with path := newPath, path_lower := lowercase_for_search newPath }
    else e)

/-- `format!("{}:/", drive as char)` (`windows_usn.rs` 607). -/
def driveRootPath (drive : Nat) : String :=
  ⟨[Char.ofNat drive, ':', '/']⟩

/-- `compose_path` (`windows_usn.rs` 598–618): the parent's path (or the
drive root), a separator when missing, then the name. -/
def compose_path (entries : List FileEntry) (frn_to_idx : List (Nat × Nat))
    (drive root_frn parent_frn : Nat) (name : String) : Option String :=
  let base? :=
    if parent_frn = root_frn then some (driveRootPath drive)
    else ((List.lookup parent_frn frn_to_idx).bind
      (fun idx => entries[idx]?)).map FileEntry.path
  base?.map (fun base =>
    (if base.endsWith "/" then base else base ++ "/") ++ name)

/-- One iteration of the event loop of `apply_events_for_drive`
(`windows_usn.rs` 487–595), threading the entry vector and the frn map.
Reason bits are tested in source order: delete, then rename-new-name,
then create. -/
def applyUsnEvent (drive root_frn : Nat)
    (st : List FileEntry × List (Nat × Nat)) (ev : UsnEvent) :
    List FileEntry × List (Nat × Nat) :=
  let entries := st.1
  let m := st.2
  if ev.reason &&& USN_REASON_FILE_DELETE ≠ 0 then
    match List.lookup ev.frn m with
    | none => (entries, m)
    | some idx =>
      let is_dir := (entryAt entries idx).is_dir
      let old_path := (entryAt entries idx).path
      let r := remove_entry_by_idx entries idx m
      if is_dir ∧ old_path ≠ "" then
        let pre := if old_path.endsWith "/" then old_path else old_path ++ "/"
        removeEntriesLoop drive pre (r.1.length + 1) r.1 0 r.2
      else r
  else if ev.reason &&& USN_REASON_RENAME_NEW_NAME ≠ 0 then
    match List.lookup ev.frn m with
    | some idx =>
      let old_path := (entryAt entries idx).path
      let old_is_dir := (entryAt entries idx).is_dir
      match compose_path entries m drive root_frn ev.parent_frn ev.name with
      | none => (entries, m)
      | some new_path =>
        let updated := { entryAt entries idx with
          name := ev.name,
          name_lower := lowercase_for_search ev.name,
          path := new_path,
          path_lower := lowercase_for_search new_path,
          parent_frn := ev.parent_frn,
          is_dir := ev.attrs &&& FILE_ATTRIBUTE_DIRECTORY ≠ 0,
          is_hidden := ev.attrs &&& (FILE_ATTRIBUTE_HIDDEN ||| FILE_ATTRIBUTE_SYSTEM) ≠ 0 }
        let entries2 := entries.set idx updated
        if old_is_dir ∧ old_path ≠ "" ∧ old_path ≠ new_path then
          let oldPre := if old_path.endsWith "/" then old_path else old_path ++ "/"
          let newPre := if new_path.endsWith "/" then new_path else new_path ++ "/"
          (updateEntriesBelow entries2 drive oldPre newPre, m)
        else (entries2, m)
    | none =>
      match compose_path entries m drive root_frn ev.parent_frn ev.name with
      | none => (entries, m)
      | some new_path =>
        let newEntry : FileEntry :=
          { name := ev.name,
            name_lower := lowercase_for_search ev.name,
            path := new_path,
            path_lower := lowercase_for_search new_path,
            drive := drive, frn := ev.frn, parent_frn := ev.parent_frn,
            size := 2 ^ 64 - 1, modified_ms := 0,
            is_dir := ev.attrs &&& FILE_ATTRIBUTE_DIRECTORY ≠ 0,
            is_hidden := ev.attrs &&& (FILE_ATTRIBUTE_HIDDEN ||| FILE_ATTRIBUTE_SYSTEM) ≠ 0 }
        (entries ++ [newEntry], mapInsert m ev.frn entries.length)
  else if ev.reason &&& USN_REASON_FILE_CREATE ≠ 0 then
    if (List.lookup ev.frn m).isSome then (entries, m)
    else
      match compose_path entries m drive root_frn ev.parent_frn ev.name with
      | none => (entries, m)
      | some new_path =>
        let newEntry : FileEntry :=
          { name := ev.name,
            name_lower := lowercase_for_search ev.name,
            path := new_path,
            path_lower := lowercase_for_search new_path,
            drive := drive, frn := ev.frn, parent_frn := ev.parent_frn,
            size := 2 ^ 64 - 1, modified_ms := 0,
            is_dir := ev.attrs &&& FILE_ATTRIBUTE_DIRECTORY ≠ 0,
            is_hidden := ev.attrs &&& (FILE_ATTRIBUTE_HIDDEN ||| FILE_ATTRIBUTE_SYSTEM) ≠ 0 }
        (entries ++ [newEntry], mapInsert m ev.frn entries.length)
  else (entries, m)

/-- `apply_events_for_drive` (`windows_usn.rs` 472–596). -/
def apply_events_for_drive (entries : List FileEntry) (state : UsnDriveState)
    (events : List UsnEvent) : List FileEntry :=
  if events = [] then entries
  else
    (events.foldl (applyUsnEvent state.drive state.root_frn)
      (entries, buildFrnMap entries state.drive)).1

/-- The per-volume loop of `try_apply_usn_incremental` (`windows_usn.rs`
103–110): read each volume's events (propagating the first error) and
apply them; the accumulator collects already-updated drive states. -/
def tryApplyGo (indexing : Bool) :
    List FileEntry → List (UsnDriveState × VolumeJournal) → List UsnDriveState →
    Except UsnSyncError Unit × List FileEntry × List UsnDriveState
  | entries, [], acc => (Except.ok (), entries, acc.reverse)
  | entries, (state, vol) :: rest, acc =>
    if indexing = false then
      (Except.ok (), entries, acc.reverse ++ state :: rest.map Prod.fst)
    else
      match read_usn_events vol state with
      | (Except.error e, state2) =>
        (Except.error e, entries, acc.reverse ++ state2 :: rest.map Prod.fst)
      | (Except.ok evs, state2) =>
        tryApplyGo indexing (apply_events_for_drive entries state2 evs) rest (state2 :: acc)

/-- `try_apply_usn_incremental` (`windows_usn.rs` 94–113).  Each list
element pairs a stored drive cursor with that volume's journal; the
result is the propagated outcome together with the final entry vector
and drive states — returned explicitly because the Rust function mutates
them in place. -/
def try_apply_usn_incremental (entries : List FileEntry)
    (vols : List (UsnDriveState × VolumeJournal)) (indexing : Bool) :
    Except UsnSyncError Unit × List FileEntry × List UsnDriveState :=
  if vols = [] then (Except.ok (), entries, [])
  else tryApplyGo indexing entries vols []

/-- Top-K contract at the `searchHeap` level: the heap keeps at most
`max max_results 1` items, and a matching entry absent from the final
heap is dominated by every kept item. -/
theorem searchHeap_topk (opts : SearchOptions) (entries : List FileEntry)
    (pattern : String) :
    (searchHeap opts entries pattern).length ≤ max opts.max_results 1 ∧
      ∀ i e s, entries[i]? = some e →
        candidateScore opts (searchTokens opts pattern) e = some s →
        (∀ it ∈ searchHeap opts entries pattern, it.tie ≠ i) →
        ∀ it ∈ searchHeap opts entries pattern, s ≤ it.score := by
  simp only [searchHeap]
  by_cases hp : pattern = ""
  · rw [if_pos hp]
    refine ⟨by simp, ?_⟩
    intro i e s hi hc hni it hit
    simp at hit
  · rw [if_neg hp]
    by_cases ht : searchTokens opts pattern = []
    · rw [if_pos ht]
      refine ⟨by simp, ?_⟩
      intro i e s hi hc hni it hit
      simp at hit
    · rw [if_neg ht]
      have hkeep : 0 < max opts.max_results 1 :=
        Nat.lt_of_lt_of_le Nat.zero_lt_one (Nat.le_max_right _ _)
      have hinv := searchLoop_inv opts (max opts.max_results 1)
        (searchTokens opts pattern) hkeep entries 0 []
        (by intro i h0 hlen; simp at hlen) (by simp)
      refine ⟨hinv.2.1, ?_⟩
      intro i e s hi hc hni
      have := hinv.2.2.2.2 i e s hi hc
      rw [Nat.zero_add] at this
      exact this hni

instance : IsTotal HeapItem scoreDescLE :=
  ⟨fun a b => Q.le_total b.score a.score⟩

instance : IsTrans HeapItem scoreDescLE :=
  ⟨fun _ _ _ h1 h2 => Q.le_trans h2 h1⟩

theorem searchRanked_perm (opts : SearchOptions) (entries : List FileEntry)
    (pattern : String) :
    (searchRanked opts entries pattern).Perm (searchHeap opts entries pattern) :=
  List.perm_insertionSort scoreDescLE _

theorem searchRanked_sorted (opts : SearchOptions) (entries : List FileEntry)
    (pattern : String) :
    (searchRanked opts entries pattern).Pairwise scoreDescLE :=
  List.sorted_insertionSort scoreDescLE _

/-! ## Surgery lemmas for swap-removal

`swap_remove` keeps the first `i` positions intact and permutes the rest
minus the removed element; the prefix-removal scan therefore filters the
list up to permutation. -/

theorem entryAt_eq_getElem {l : List FileEntry} {i : Nat} (h : i < l.length) :
    entryAt l i = l[i] := by
  simp [entryAt, List.getElem?_eq_getElem h]

theorem swapRemoveAt_length (l : List FileEntry) (i : Nat) :
    (swapRemoveAt l i).length = l.length - 1 := by
  unfold swapRemoveAt
  by_cases hl : i + 1 = l.length
  · rw [if_pos hl, List.length_dropLast]
  · rw [if_neg hl, List.length_set, List.length_dropLast]

theorem swapRemoveAt_take {l : List FileEntry} {i : Nat} (h : i < l.length) :
    (swapRemoveAt l i).take i = l.take i := by
  unfold swapRemoveAt
  by_cases hl : i + 1 = l.length
  · rw [if_pos hl, List.dropLast_eq_take, List.take_take]
    congr 1
    omega
  · rw [if_neg hl]
    apply List.ext_getElem?
    intro k
    rw [List.getElem?_take, List.getElem?_take]
    by_cases hk : k < i
    · rw [if_pos hk, if_pos hk, List.getElem?_set_ne (by omega),
        List.dropLast_eq_take, List.getElem?_take, if_pos (by omega)]
    · rw [if_neg hk, if_neg hk]

theorem swapRemoveAt_drop {l : List FileEntry} {i : Nat} (h : i < l.length) :
    ((swapRemoveAt l i).drop i).Perm (l.drop (i + 1)) := by
  unfold swapRemoveAt
  by_cases hl : i + 1 = l.length
  · rw [if_pos hl, List.drop_eq_nil_of_le (by rw [List.length_dropLast]; omega),
      List.drop_eq_nil_of_le (by omega)]
  · rw [if_neg hl]
    have hne : l ≠ [] := by
      intro hnil
      rw [hnil] at h
      simp at h
    have hx : entryAt l (l.length - 1) = l.getLast hne := by
      rw [entryAt_eq_getElem (by omega), List.getLast_eq_getElem]
    have hiD : i < l.dropLast.length := by
      rw [List.length_dropLast]
      omega
    have hA : (l.dropLast.set i (entryAt l (l.length - 1))).drop i =
        entryAt l (l.length - 1) :: l.dropLast.drop (i + 1) := by
      rw [List.drop_eq_getElem_cons (by rw [List.length_set]; exact hiD)]
      congr 1
      · exact List.getElem_set_self _
      · apply List.ext_getElem?
        intro k
        rw [List.getElem?_drop, List.getElem?_drop, List.getElem?_set_ne (by omega)]
    have hB : l.drop (i + 1) = l.dropLast.drop (i + 1) ++ [entryAt l (l.length - 1)] := by
      conv_lhs => rw [← List.dropLast_append_getLast hne]
      rw [List.drop_append_of_le_length (by rw [List.length_dropLast]; omega), hx]
    rw [hA, hB]
    exact (List.perm_append_singleton _ _).symm

theorem swapRemoveAt_perm {l : List FileEntry} {i : Nat} (h : i < l.length) :
    (swapRemoveAt l i).Perm (l.eraseIdx i) := by
  have h1 : swapRemoveAt l i =
      (swapRemoveAt l i).take i ++ (swapRemoveAt l i).drop i :=
    (List.take_append_drop _ _).symm
  rw [h1, swapRemoveAt_take h, List.eraseIdx_eq_take_drop_succ]
  exact List.Perm.append_left _ (swapRemoveAt_drop h)

/-- The prefix-removal scan keeps (up to permutation) exactly the already
scanned prefix plus the unscanned entries that do not match. -/
theorem removeEntriesLoop_perm (drive : Nat) (pre : String) :
    ∀ (fuel : Nat) (l : List FileEntry) (i : Nat) (m : List (Nat × Nat)),
      l.length ≤ fuel + i →
      ((removeEntriesLoop drive pre fuel l i m).1).Perm
        (l.take i ++ (l.drop i).filter
          (fun e => !(decide (e.drive = drive ∧ pre.isPrefixOf e.path)))) := by
  intro fuel
  induction fuel with
  | zero =>
    intro l i m hfuel
    rw [removeEntriesLoop]
    rw [List.take_of_length_le (by omega), List.drop_eq_nil_of_le (by omega)]
    simp
  | succ fuel ih =>
    intro l i m hfuel
    rw [removeEntriesLoop]
    by_cases hi : i < l.length
    · rw [if_pos hi]
      by_cases hcond : (entryAt l i).drive = drive ∧ pre.isPrefixOf (entryAt l i).path
      · rw [if_pos hcond]
        have hlen2 : (remove_entry_by_idx l i m).1.length = l.length - 1 := by
          show (swapRemoveAt l i).length = l.length - 1
          exact swapRemoveAt_length l i
        have hrec := ih (remove_entry_by_idx l i m).1 i (remove_entry_by_idx l i m).2
          (by omega)
        refine hrec.trans ?_
        have htk : ((remove_entry_by_idx l i m).1).take i = l.take i :=
          swapRemoveAt_take hi
        have hdr : (((remove_entry_by_idx l i m).1).drop i).Perm (l.drop (i + 1)) :=
          swapRemoveAt_drop hi
        rw [htk]
        refine List.Perm.append_left _ ?_
        refine (hdr.filter _).trans ?_
        have hdropi : l.drop i = l[i] :: l.drop (i + 1) :=
          List.drop_eq_getElem_cons hi
        rw [hdropi, List.filter_cons]
        rw [entryAt_eq_getElem hi] at hcond
        simp only [hcond]
        rw [if_neg (by simp)]
      · rw [if_neg hcond]
        have hrec := ih l (i + 1) m (by omega)
        refine hrec.trans ?_
        have htk : l.take (i + 1) = l.take i ++ [l[i]] := by
          rw [List.take_succ, List.getElem?_eq_getElem hi]
          rfl
        have hfl : (l.drop i).filter
            (fun e => !(decide (e.drive = drive ∧ pre.isPrefixOf e.path))) =
            l[i] :: (l.drop (i + 1)).filter
              (fun e => !(decide (e.drive = drive ∧ pre.isPrefixOf e.path))) := by
          rw [List.drop_eq_getElem_cons hi, List.filter_cons]
          rw [entryAt_eq_getElem hi] at hcond
          rw [if_pos (by simp [hcond])]
        rw [htk, hfl, List.append_assoc]
        exact List.Perm.refl _
    · rw [if_neg hi]
      rw [List.take_of_length_le (by omega), List.drop_eq_nil_of_le (by omega)]
      simp

/-- Delete of a known directory entry: the survivors are (up to
permutation) everything but the entry itself and the same-drive entries
under its path. -/
theorem applyUsnEvent_delete_dir (entries : List FileEntry) (m : List (Nat × Nat))
    (drive root_frn : Nat) (ev : UsnEvent) (idx : Nat)
    (hreason : ev.reason &&& USN_REASON_FILE_DELETE ≠ 0)
    (hlk : List.lookup ev.frn m = some idx)
    (hidx : idx < entries.length)
    (hdir : (entryAt entries idx).is_dir = true)
    (hne : (entryAt entries idx).path ≠ "")
    (hslash : (entryAt entries idx).path.endsWith "/" = false) :
    ((applyUsnEvent drive root_frn (entries, m) ev).1).Perm
      ((entries.eraseIdx idx).filter
        (fun e => !(decide (e.drive = drive ∧
          ((entryAt entries idx).path ++ "/").isPrefixOf e.path)))) := by
  rw [applyUsnEvent]
  rw [if_pos hreason, hlk]
  dsimp only
  rw [if_pos ⟨by rw [hdir], hne⟩]
  rw [if_neg (by rw [hslash]; simp)]
  have hperm := removeEntriesLoop_perm drive ((entryAt entries idx).path ++ "/")
    ((remove_entry_by_idx entries idx m).1.length + 1)
    (remove_entry_by_idx entries idx m).1 0 (remove_entry_by_idx entries idx m).2
    (by omega)
  rw [List.take_zero, List.drop_zero, List.nil_append] at hperm
  refine hperm.trans ?_
  refine List.Perm.filter _ ?_
  exact swapRemoveAt_perm hidx

/-- Rename of a known directory entry: every other entry keeps its slot;
same-drive descendants get the old prefix replaced by the new one with
the suffix preserved, everything else is untouched. -/
theorem applyUsnEvent_rename_dir (entries : List FileEntry) (m : List (Nat × Nat))
    (drive root_frn : Nat) (ev : UsnEvent) (idx : Nat) (new_path : String)
    (hnodel : ev.reason &&& USN_REASON_FILE_DELETE = 0)
    (hren : ev.reason &&& USN_REASON_RENAME_NEW_NAME ≠ 0)
    (hlk : List.lookup ev.frn m = some idx)
    (hcp : compose_path entries m drive root_frn ev.parent_frn ev.name = some new_path)
    (hdir : (entryAt entries idx).is_dir = true)
    (hne : (entryAt entries idx).path ≠ "")
    (hneq : (entryAt entries idx).path ≠ new_path)
    (hoslash : (entryAt entries idx).path.endsWith "/" = false)
    (hnslash : new_path.endsWith "/" = false) :
    ((applyUsnEvent drive root_frn (entries, m) ev).1).length = entries.length ∧
    ∀ j e, entries[j]? = some e → j ≠ idx →
      (e.drive = drive ∧ ((entryAt entries idx).path ++ "/").isPrefixOf e.path →
        ((applyUsnEvent drive root_frn (entries, m) ev).1)[j]? =
          some { e with
            path := (new_path ++ "/") ++
              e.path.drop ((entryAt entries idx).path ++ "/").length,
            path_lower := lowercase_for_search ((new_path ++ "/") ++
              e.path.drop ((entryAt entries idx).path ++ "/").length) }) ∧
      (¬(e.drive = drive ∧ ((entryAt entries idx).path ++ "/").isPrefixOf e.path) →
        ((applyUsnEvent drive root_frn (entries, m) ev).1)[j]? = some e) := by
  have hred : (applyUsnEvent drive root_frn (entries, m) ev).1 =
      updateEntriesBelow (entries.set idx
        { entryAt entries idx with
          name := ev.name,
          name_lower := lowercase_for_search ev.name,
          path := new_path,
          path_lower := lowercase_for_search new_path,
          parent_frn := ev.parent_frn,
          is_dir := ev.attrs &&& FILE_ATTRIBUTE_DIRECTORY ≠ 0,
          is_hidden := ev.attrs &&& (FILE_ATTRIBUTE_HIDDEN ||| FILE_ATTRIBUTE_SYSTEM) ≠ 0 })
        drive ((entryAt entries idx).path ++ "/") (new_path ++ "/") := by
    rw [applyUsnEvent]
    rw [if_neg (fun hc => hc hnodel), if_pos hren, hlk]
    dsimp only
    rw [hcp]
    dsimp only
    rw [if_pos ⟨by rw [hdir], hne, hneq⟩]
    rw [if_neg (by rw [hoslash]; simp), if_neg (by rw [hnslash]; simp)]
  rw [hred]
  constructor
  · rw [updateEntriesBelow, List.length_map, List.length_set]
  · intro j e hj hji
    have hj2 : ∀ u : FileEntry, (entries.set idx u)[j]? = some e := fun u => by
      rw [List.getElem?_set_ne (fun h => hji h.symm)]
      exact hj
    constructor
    · intro hcond
      rw [updateEntriesBelow, List.getElem?_map, hj2 _]
      simp only [Option.map_some']
      rw [if_pos hcond]
    · intro hcond
      rw [updateEntriesBelow, List.getElem?_map, hj2 _]
      simp only [Option.map_some']
      rw [if_neg hcond]

/-! ## Consistency of the frn-to-index table (`windows_usn.rs` 480–485,
620–635)

`frn_to_idx` is consistent when its keys are unique and nonzero and every
binding points at an entry carrying that frn.  All structural mutations of
`apply_events_for_drive` preserve this. -/

def NodupKeys (m : List (Nat × Nat)) : Prop := (m.map Prod.fst).Nodup

def ZeroFreeKeys (m : List (Nat × Nat)) : Prop := ∀ p ∈ m, p.1 ≠ 0

/-- Every binding of the table points at an entry carrying the key frn. -/
def FrnInv (entries : List FileEntry) (m : List (Nat × Nat)) : Prop :=
  ∀ p ∈ m, (entries[p.2]?).map FileEntry.frn = some p.1

def UsnMapConsistent (entries : List FileEntry) (m : List (Nat × Nat)) : Prop :=
  NodupKeys m ∧ ZeroFreeKeys m ∧ FrnInv entries m

instance (entries : List FileEntry) (m : List (Nat × Nat)) :
    Decidable (UsnMapConsistent entries m) := by
  unfold UsnMapConsistent NodupKeys ZeroFreeKeys FrnInv
  infer_instance

theorem lookup_mem {m : List (Nat × Nat)} {k v : Nat}
    (h : List.lookup k m = some v) : (k, v) ∈ m := by
  induction m with
  | nil => simp [List.lookup] at h
  | cons a t ih =>
    rw [List.lookup] at h
    by_cases hk : k = a.1
    · have hb : (k == a.1) = true := beq_iff_eq.mpr hk
      rw [hb] at h
      injection h with hv
      have : (k, v) = a := by
        rw [hk, ← hv]
      rw [this]
      exact List.mem_cons_self _ _
    · have hb : (k == a.1) = false := by simp [hk]
      rw [hb] at h
      exact List.mem_cons_of_mem _ (ih h)

theorem lookup_eq_none_of_keys_ne {m : List (Nat × Nat)} {k : Nat}
    (h : ∀ p ∈ m, p.1 ≠ k) : List.lookup k m = none := by
  induction m with
  | nil => rfl
  | cons a t ih =>
    rw [List.lookup]
    have := h a (List.mem_cons_self _ _)
    have hb : (k == a.1) = false := by
      simp
      omega
    rw [hb]
    exact ih (fun p hp => h p (List.mem_cons_of_mem _ hp))

theorem mem_mapRemove {m : List (Nat × Nat)} {k : Nat} {p : Nat × Nat} :
    p ∈ mapRemove m k ↔ p ∈ m ∧ p.1 ≠ k := by
  rw [mapRemove, List.mem_filter]
  simp

theorem nodupKeys_mapRemove {m : List (Nat × Nat)} (k : Nat)
    (h : NodupKeys m) : NodupKeys (mapRemove m k) :=
  ((List.filter_sublist m).map Prod.fst).nodup h

theorem nodupKeys_mapInsert {m : List (Nat × Nat)} (k v : Nat)
    (h : NodupKeys m) : NodupKeys (mapInsert m k v) := by
  rw [mapInsert, NodupKeys, List.map_cons, List.nodup_cons]
  refine ⟨?_, nodupKeys_mapRemove k h⟩
  intro hk
  obtain ⟨p, hp, hpk⟩ := List.mem_map.1 hk
  exact absurd hpk.symm (Ne.symm (mem_mapRemove.1 hp).2)

theorem mapInsert_consistent {entries : List FileEntry} {m : List (Nat × Nat)}
    {k v : Nat} (hinv : UsnMapConsistent entries m) (hk0 : k ≠ 0)
    (hkv : (entries[v]?).map FileEntry.frn = some k) :
    UsnMapConsistent entries (mapInsert m k v) := by
  obtain ⟨hnd, hzf, hfi⟩ := hinv
  refine ⟨nodupKeys_mapInsert k v hnd, ?_, ?_⟩
  · intro p hp
    rcases List.mem_cons.1 hp with hph | hpt
    · rw [hph]
      exact hk0
    · exact hzf p (mem_mapRemove.1 hpt).1
  · intro p hp
    rcases List.mem_cons.1 hp with hph | hpt
    · rw [hph]
      exact hkv
    · exact hfi p (mem_mapRemove.1 hpt).1

theorem frnInv_append {entries : List FileEntry} {m : List (Nat × Nat)}
    (x : FileEntry) (hfi : FrnInv entries m) : FrnInv (entries ++ [x]) m := by
  intro p hp
  have := hfi p hp
  cases hg : entries[p.2]? with
  | none =>
    rw [hg] at this
    simp at this
  | some e =>
    rw [hg] at this
    rw [List.getElem?_append, if_pos (List.getElem?_eq_some.mp hg).1, hg]
    exact this

theorem consistent_append_insert {entries : List FileEntry} {m : List (Nat × Nat)}
    (newE : FileEntry) (hfrn : newE.frn ≠ 0)
    (hinv : UsnMapConsistent entries m) :
    UsnMapConsistent (entries ++ [newE]) (mapInsert m newE.frn entries.length) := by
  refine mapInsert_consistent ⟨hinv.1, hinv.2.1, frnInv_append newE hinv.2.2⟩ hfrn ?_
  rw [List.getElem?_concat_length]
  rfl

theorem consistent_set {entries : List FileEntry} {m : List (Nat × Nat)}
    {idx : Nat} {u : FileEntry} (hfrn : u.frn = (entryAt entries idx).frn)
    (hinv : UsnMapConsistent entries m) :
    UsnMapConsistent (entries.set idx u) m := by
  obtain ⟨hnd, hzf, hfi⟩ := hinv
  refine ⟨hnd, hzf, ?_⟩
  intro p hp
  have := hfi p hp
  by_cases hpi : p.2 = idx
  · cases hg : entries[p.2]? with
    | none =>
      rw [hg] at this
      simp at this
    | some e =>
      rw [hg] at this
      have hlt : p.2 < entries.length := (List.getElem?_eq_some.mp hg).1
      rw [hpi] at hlt hg
      rw [hpi, List.getElem?_set_self hlt]
      simp only [Option.map_some'] at this ⊢
      rw [hfrn, entryAt_eq_getElem hlt]
      rw [List.getElem?_eq_getElem hlt] at hg
      injection hg with he
      rw [he]
      exact this
  · rw [List.getElem?_set_ne (fun h => hpi h.symm)]
    exact this

theorem consistent_updateBelow {entries : List FileEntry} {m : List (Nat × Nat)}
    (drive' : Nat) (a b : String) (hinv : UsnMapConsistent entries m) :
    UsnMapConsistent (updateEntriesBelow entries drive' a b) m := by
  obtain ⟨hnd, hzf, hfi⟩ := hinv
  refine ⟨hnd, hzf, ?_⟩
  intro p hp
  have := hfi p hp
  rw [updateEntriesBelow, List.getElem?_map]
  cases hg : entries[p.2]? with
  | none =>
    rw [hg] at this
    simp at this
  | some e =>
    rw [hg] at this
    simp only [Option.map_some'] at this ⊢
    by_cases hc : e.drive = drive' ∧ a.isPrefixOf e.path
    · rw [if_pos hc]
      exact this
    · rw [if_neg hc]
      exact this

theorem swapRemoveAt_getElem_ne {l : List FileEntry} {idx j : Nat}
    (hj : j ≠ idx) (hjlen : j < l.length - 1) :
    (swapRemoveAt l idx)[j]? = l[j]? := by
  unfold swapRemoveAt
  by_cases hl : idx + 1 = l.length
  · rw [if_pos hl, List.dropLast_eq_take, List.getElem?_take, if_pos (by omega)]
  · rw [if_neg hl, List.getElem?_set_ne (fun h => hj h.symm),
      List.dropLast_eq_take, List.getElem?_take, if_pos (by omega)]

theorem swapRemoveAt_getElem_idx {l : List FileEntry} {idx : Nat}
    (hidx : idx < l.length - 1) :
    (swapRemoveAt l idx)[idx]? = l[l.length - 1]? := by
  unfold swapRemoveAt
  rw [if_neg (by omega)]
  have hlt : idx < l.dropLast.length := by
    rw [List.length_dropLast]
    omega
  rw [List.getElem?_set_self hlt, entryAt_eq_getElem (by omega),
    List.getElem?_eq_getElem (by omega)]

/-- `remove_entry_by_idx` keeps the table consistent: the removed frn is
unmapped and the swapped-in entry (if any) is remapped to its new slot. -/
theorem remove_entry_by_idx_inv {entries : List FileEntry} {m : List (Nat × Nat)}
    {idx : Nat} (hidx : idx < entries.length)
    (hinv : UsnMapConsistent entries m) :
    UsnMapConsistent (remove_entry_by_idx entries idx m).1
      (remove_entry_by_idx entries idx m).2 := by
  obtain ⟨hnd, hzf, hfi⟩ := hinv
  have hrm : entryAt entries idx = entries[idx] := entryAt_eq_getElem hidx
  have hfi' : ∀ p ∈ m, ∃ e, entries[p.2]? = some e ∧ e.frn = p.1 ∧
      p.2 < entries.length := by
    intro p hp
    cases hg : entries[p.2]? with
    | none =>
      have := hfi p hp
      rw [hg] at this
      simp at this
    | some e =>
      have := hfi p hp
      rw [hg] at this
      simp only [Option.map_some'] at this
      injection this with hfrn
      exact ⟨e, rfl, hfrn, (List.getElem?_eq_some.mp hg).1⟩
  have hm1sub : ∀ p ∈ (if (entryAt entries idx).frn ≠ 0 then
      mapRemove m (entryAt entries idx).frn else m),
      p ∈ m ∧ p.1 ≠ (entryAt entries idx).frn := by
    intro p hp
    by_cases hz : (entryAt entries idx).frn ≠ 0
    · rw [if_pos hz] at hp
      exact mem_mapRemove.1 hp
    · rw [if_neg hz] at hp
      refine ⟨hp, ?_⟩
      intro hk
      exact (hzf p hp) (by omega)
  have hm1nd : NodupKeys (if (entryAt entries idx).frn ≠ 0 then
      mapRemove m (entryAt entries idx).frn else m) := by
    by_cases hz : (entryAt entries idx).frn ≠ 0
    · rw [if_pos hz]
      exact nodupKeys_mapRemove _ hnd
    · rw [if_neg hz]
      exact hnd
  have hnotidx : ∀ p, p ∈ m → p.1 ≠ (entryAt entries idx).frn → p.2 ≠ idx := by
    intro p hp hk hpid
    obtain ⟨e, hg, hfrn, _⟩ := hfi' p hp
    rw [hpid, List.getElem?_eq_getElem hidx] at hg
    injection hg with he
    exact hk (by rw [hrm, he, hfrn])
  have hlen2 : (swapRemoveAt entries idx).length = entries.length - 1 :=
    swapRemoveAt_length entries idx
  show UsnMapConsistent (swapRemoveAt entries idx)
    (if idx < (swapRemoveAt entries idx).length then
      if (entryAt (swapRemoveAt entries idx) idx).frn ≠ 0 then
        mapInsert _ (entryAt (swapRemoveAt entries idx) idx).frn idx
      else _
     else _)
  by_cases hc1 : idx < (swapRemoveAt entries idx).length
  · have hidx1 : idx < entries.length - 1 := by omega
    have hswget : (swapRemoveAt entries idx)[idx]? = entries[entries.length - 1]? :=
      swapRemoveAt_getElem_idx hidx1
    have hswsome : entries[entries.length - 1]? =
        some (entryAt (swapRemoveAt entries idx) idx) := by
      rw [← hswget, entryAt_eq_getElem hc1, List.getElem?_eq_getElem hc1]
    rw [if_pos hc1]
    by_cases hc2 : (entryAt (swapRemoveAt entries idx) idx).frn ≠ 0
    · rw [if_pos hc2]
      refine ⟨nodupKeys_mapInsert _ _ hm1nd, ?_, ?_⟩
      · intro p hp
        rcases List.mem_cons.1 hp with hph | hpt
        · rw [hph]
          exact hc2
        · exact hzf p (hm1sub p (mem_mapRemove.1 hpt).1).1
      · intro p hp
        rcases List.mem_cons.1 hp with hph | hpt
        · rw [hph]
          rw [List.getElem?_eq_getElem hc1, ← entryAt_eq_getElem hc1]
          rfl
        · obtain ⟨hpm1, hpk⟩ := mem_mapRemove.1 hpt
          obtain ⟨hpm, hprm⟩ := hm1sub p hpm1
          obtain ⟨e, hg, hfrn, hplen⟩ := hfi' p hpm
          have hp2idx : p.2 ≠ idx := hnotidx p hpm hprm
          have hp2last : p.2 ≠ entries.length - 1 := by
            intro hl
            apply hpk
            rw [hl, hswsome] at hg
            injection hg with he
            rw [← hfrn, he]
          rw [swapRemoveAt_getElem_ne hp2idx (by omega)]
          exact hfi p hpm
    · rw [if_neg hc2]
      refine ⟨hm1nd, ?_, ?_⟩
      · intro p hp
        exact hzf p (hm1sub p hp).1
      · intro p hp
        obtain ⟨hpm, hprm⟩ := hm1sub p hp
        obtain ⟨e, hg, hfrn, hplen⟩ := hfi' p hpm
        have hp2idx : p.2 ≠ idx := hnotidx p hpm hprm
        have hz2 : (entryAt (swapRemoveAt entries idx) idx).frn = 0 := by omega
        have hp2last : p.2 ≠ entries.length - 1 := by
          intro hl
          rw [hl, hswsome] at hg
          injection hg with he
          apply hzf p hpm
          rw [← hfrn, ← he, hz2]
        rw [swapRemoveAt_getElem_ne hp2idx (by omega)]
        exact hfi p hpm
  · rw [if_neg hc1]
    refine ⟨hm1nd, ?_, ?_⟩
    · intro p hp
      exact hzf p (hm1sub p hp).1
    · intro p hp
      obtain ⟨hpm, hprm⟩ := hm1sub p hp
      obtain ⟨e, hg, hfrn, hplen⟩ := hfi' p hpm
      have hp2idx : p.2 ≠ idx := hnotidx p hpm hprm
      rw [swapRemoveAt_getElem_ne hp2idx (by omega)]
      exact hfi p hpm


theorem consistent_lookup_lt {entries : List FileEntry} {m : List (Nat × Nat)}
    {k idx : Nat} (hinv : UsnMapConsistent entries m)
    (hlk : List.lookup k m = some idx) : idx < entries.length := by
  have hmem := lookup_mem hlk
  have := hinv.2.2 _ hmem
  cases hg : entries[idx]? with
  | none =>
    rw [hg] at this
    simp at this
  | some e =>
    exact (List.getElem?_eq_some.mp hg).1

theorem removeEntriesLoop_inv (drive : Nat) (pre : String) :
    ∀ (fuel : Nat) (l : List FileEntry) (i : Nat) (m : List (Nat × Nat)),
      UsnMapConsistent l m →
      UsnMapConsistent (removeEntriesLoop drive pre fuel l i m).1
        (removeEntriesLoop drive pre fuel l i m).2 := by
  intro fuel
  induction fuel with
  | zero =>
    intro l i m hinv
    rw [removeEntriesLoop]
    exact hinv
  | succ fuel ih =>
    intro l i m hinv
    rw [removeEntriesLoop]
    by_cases hi : i < l.length
    · rw [if_pos hi]
      by_cases hcond : (entryAt l i).drive = drive ∧ pre.isPrefixOf (entryAt l i).path
      · rw [if_pos hcond]
        exact ih _ _ _ (remove_entry_by_idx_inv hi hinv)
      · rw [if_neg hcond]
        exact ih _ _ _ hinv
    · rw [if_neg hi]
      exact hinv

theorem applyUsnEvent_inv (drive root_frn : Nat) (entries : List FileEntry)
    (m : List (Nat × Nat)) (ev : UsnEvent) (hfrn : ev.frn ≠ 0)
    (hinv : UsnMapConsistent entries m) :
    UsnMapConsistent (applyUsnEvent drive root_frn (entries, m) ev).1
      (applyUsnEvent drive root_frn (entries, m) ev).2 := by
  rw [applyUsnEvent]
  by_cases hdel : ev.reason &&& USN_REASON_FILE_DELETE ≠ 0
  · rw [if_pos hdel]
    cases hlk : List.lookup ev.frn m with
    | none => exact hinv
    | some idx =>
      dsimp only
      have hidx : idx < entries.length := consistent_lookup_lt hinv hlk
      have hrinv := remove_entry_by_idx_inv hidx hinv
      by_cases hcond : (entryAt entries idx).is_dir ∧ (entryAt entries idx).path ≠ ""
      · rw [if_pos hcond]
        exact removeEntriesLoop_inv _ _ _ _ _ _ hrinv
      · rw [if_neg hcond]
        exact hrinv
  · rw [if_neg hdel]
    by_cases hren : ev.reason &&& USN_REASON_RENAME_NEW_NAME ≠ 0
    · rw [if_pos hren]
      cases hlk : List.lookup ev.frn m with
      | some idx =>
        dsimp only
        cases hcp : compose_path entries m drive root_frn ev.parent_frn ev.name with
        | none => exact hinv
        | some new_path =>
          dsimp only
          have hsetinv := @consistent_set entries m idx
            { entryAt entries idx with
              name := ev.name,
              name_lower := lowercase_for_search ev.name,
              path := new_path,
              path_lower := lowercase_for_search new_path,
              parent_frn := ev.parent_frn,
              is_dir := ev.attrs &&& FILE_ATTRIBUTE_DIRECTORY ≠ 0,
              is_hidden := ev.attrs &&& (FILE_ATTRIBUTE_HIDDEN ||| FILE_ATTRIBUTE_SYSTEM) ≠ 0 }
            rfl hinv
          by_cases hcond : (entryAt entries idx).is_dir ∧
              (entryAt entries idx).path ≠ "" ∧ (entryAt entries idx).path ≠ new_path
          · rw [if_pos hcond]
            exact consistent_updateBelow _ _ _ hsetinv
          · rw [if_neg hcond]
            exact hsetinv
      | none =>
        dsimp only
        cases hcp : compose_path entries m drive root_frn ev.parent_frn ev.name with
        | none => exact hinv
        | some new_path =>
          dsimp only
          exact consistent_append_insert _ hfrn hinv
    · rw [if_neg hren]
      by_cases hcr : ev.reason &&& USN_REASON_FILE_CREATE ≠ 0
      · rw [if_pos hcr]
        by_cases hkn : (List.lookup ev.frn m).isSome
        · rw [if_pos hkn]
          exact hinv
        · rw [if_neg hkn]
          cases hcp : compose_path entries m drive root_frn ev.parent_frn ev.name with
          | none => exact hinv
          | some new_path =>
            dsimp only
            exact consistent_append_insert _ hfrn hinv
      · rw [if_neg hcr]
        exact hinv

theorem buildFrnMap_consistent (entries : List FileEntry) (drive : Nat) :
    UsnMapConsistent entries (buildFrnMap entries drive) := by
  have general : ∀ (l : List (Nat × FileEntry)) (acc : List (Nat × Nat)),
      (∀ q ∈ l, entries[q.1]? = some q.2) →
      UsnMapConsistent entries acc →
      UsnMapConsistent entries
        (l.foldl (fun m p =>
          if p.2.drive = drive ∧ p.2.frn ≠ 0 then mapInsert m p.2.frn p.1 else m) acc) := by
    intro l
    induction l with
    | nil => exact fun acc _ h => h
    | cons q t ih =>
      intro acc hq hacc
      rw [List.foldl_cons]
      refine ih _ (fun r hr => hq r (List.mem_cons_of_mem _ hr)) ?_
      by_cases hc : q.2.drive = drive ∧ q.2.frn ≠ 0
      · rw [if_pos hc]
        refine mapInsert_consistent hacc hc.2 ?_
        rw [hq q (List.mem_cons_self _ _)]
        rfl
      · rw [if_neg hc]
        exact hacc
  refine general entries.enum []
    (fun q hq => List.mk_mem_enum_iff_getElem?.mp hq) ?_
  refine ⟨by simp [NodupKeys], ?_, ?_⟩
  · intro p hp
    simp at hp
  · intro p hp
    simp at hp

theorem applyEventsFold_inv (drive root_frn : Nat) :
    ∀ (events : List UsnEvent) (entries : List FileEntry) (m : List (Nat × Nat)),
      (∀ ev ∈ events, ev.frn ≠ 0) →
      UsnMapConsistent entries m →
      UsnMapConsistent
        (events.foldl (applyUsnEvent drive root_frn) (entries, m)).1
        (events.foldl (applyUsnEvent drive root_frn) (entries, m)).2 := by
  intro events
  induction events with
  | nil => exact fun entries m _ h => h
  | cons ev t ih =>
    intro entries m hfrns hinv
    rw [List.foldl_cons]
    have hstep := applyUsnEvent_inv drive root_frn entries m ev
      (hfrns ev (List.mem_cons_self _ _)) hinv
    have := ih (applyUsnEvent drive root_frn (entries, m) ev).1
      (applyUsnEvent drive root_frn (entries, m) ev).2
      (fun e he => hfrns e (List.mem_cons_of_mem _ he)) hstep
    exact this

theorem remove_entry_stale_free {entries : List FileEntry} {m : List (Nat × Nat)}
    {idx : Nat} (hidx : idx < entries.length)
    (hfrn0 : (entryAt entries idx).frn ≠ 0)
    (hglobal : ∀ j e, entries[j]? = some e → j ≠ idx →
      e.frn ≠ (entryAt entries idx).frn) :
    List.lookup (entryAt entries idx).frn (remove_entry_by_idx entries idx m).2 =
      none := by
  apply lookup_eq_none_of_keys_ne
  intro p hp
  show p.1 ≠ (entryAt entries idx).frn
  have hm1 : ∀ q, q ∈ (if (entryAt entries idx).frn ≠ 0 then
      mapRemove m (entryAt entries idx).frn else m) →
      q.1 ≠ (entryAt entries idx).frn := by
    intro q hq
    rw [if_pos hfrn0] at hq
    exact (mem_mapRemove.1 hq).2
  revert hp
  show p ∈ (if idx < (swapRemoveAt entries idx).length then _ else _) → _
  by_cases hc1 : idx < (swapRemoveAt entries idx).length
  · rw [if_pos hc1]
    have hidx1 : idx < entries.length - 1 := by
      have := swapRemoveAt_length entries idx
      omega
    have hswget : (swapRemoveAt entries idx)[idx]? = entries[entries.length - 1]? :=
      swapRemoveAt_getElem_idx hidx1
    have hswval : entryAt (swapRemoveAt entries idx) idx =
        entryAt entries (entries.length - 1) := by
      rw [entryAt, entryAt, hswget]
    by_cases hc2 : (entryAt (swapRemoveAt entries idx) idx).frn ≠ 0
    · rw [if_pos hc2]
      intro hp
      rcases List.mem_cons.1 hp with hph | hpt
      · rw [hph]
        rw [hswval, entryAt_eq_getElem (show entries.length - 1 < entries.length by omega)]
        exact hglobal (entries.length - 1) _
          (List.getElem?_eq_getElem (by omega)) (by omega)
      · exact hm1 p (mem_mapRemove.1 hpt).1
    · rw [if_neg hc2]
      exact hm1 p
  · rw [if_neg hc1]
    exact hm1 p

/-! ## The span identity of `fuzzy_match`

A successful greedy subsequence match covers exactly the needle's
characters plus its gaps: `last + 1 = first + needle.length + gaps`. -/

theorem fuzzyMatchAux_span (hs : List Char) : ∀ (current : Char) (rest : List Char)
    (first prev : Option Nat) (gaps i k : Nat) (m : FuzzyMatch),
    fuzzyMatchAux current rest first prev gaps hs i = some m →
    ((first = none ∧ prev = none ∧ gaps = 0 ∧ k = 0) ∨
      (∃ f p, first = some f ∧ prev = some p ∧ p + 1 = f + k + gaps ∧ p < i)) →
    m.last + 1 = m.first + (k + rest.length + 1) + m.gaps := by
  induction hs with
  | nil =>
    intro current rest first prev gaps i k m heq hinv
    simp [fuzzyMatchAux] at heq
  | cons c t IH =>
    intro current rest first prev gaps i k m heq hinv
    simp only [fuzzyMatchAux] at heq
    by_cases hc : c ≠ current
    · rw [if_pos hc] at heq
      refine IH current rest first prev gaps (i + 1) k m heq ?_
      rcases hinv with h1 | ⟨f, p, hf, hp, harith, hlt⟩
      · exact Or.inl h1
      · exact Or.inr ⟨f, p, hf, hp, harith, by omega⟩
    · rw [if_neg hc] at heq
      rcases hinv with ⟨hf, hp, hg, hk⟩ | ⟨f, p, hf, hp, harith, hlt⟩
      · subst hf; subst hp; subst hg; subst hk
        cases rest with
        | nil =>
          simp only [Option.getD_none] at heq
          injection heq with hm
          rw [← hm]
          simp only [List.length_nil]
        | cons n ns =>
          simp only [Option.getD_none] at heq
          have := IH n ns (some i) (some i) (0 + 0) (i + 1) 1 m heq
            (Or.inr ⟨i, i, rfl, rfl, by omega, by omega⟩)
          simp only [List.length_cons]
          omega
      · subst hf; subst hp
        cases rest with
        | nil =>
          simp only [Option.getD_some] at heq
          injection heq with hm
          rw [← hm]
          simp only [List.length_nil]
          omega
        | cons n ns =>
          simp only [Option.getD_some] at heq
          have := IH n ns (some f) (some i) (gaps + (i - (p + 1))) (i + 1) (k + 1) m heq
            (Or.inr ⟨f, i, rfl, rfl, by omega, by omega⟩)
          simp only [List.length_cons]
          omega

theorem fuzzy_match_span (haystack needle : List Char) (m : FuzzyMatch)
    (h : fuzzy_match haystack needle = some m) :
    m.last + 1 = m.first + needle.length + m.gaps := by
  cases needle with
  | nil => simp [fuzzy_match] at h
  | cons n ns =>
    have := fuzzyMatchAux_span haystack n ns none none 0 0 0 m h
      (Or.inl ⟨rfl, rfl, rfl, rfl⟩)
    simp only [List.length_cons]
    omega

/-- The acceptance condition of `fuzzy_token_match` for a nonempty token:
a match exists, short tokens are gap-free, and the span stays within
`10·len + 20`. -/
theorem fuzzy_token_match_isSome_iff (haystack token : List Char) (qi : Nat) (m : FuzzyMatch)
    (h1len : 1 ≤ token.length) (hfm : fuzzy_match haystack token = some m) :
    (fuzzy_token_match haystack token qi).isSome ↔
      (token.length ≤ 2 → m.gaps = 0) ∧
        m.last - m.first + 1 ≤ token.length * 10 + 20 := by
  have ht : token ≠ [] := by
    cases token with
    | nil => simp at h1len
    | cons a l => simp
  have hmax : token.length ⊔ 1 = token.length := by omega
  rw [fuzzy_token_match, if_neg ht, hfm]
  by_cases h1 : token.length ≤ 2 ∧ ¬m.gaps = 0
  · simp [h1, hmax]
  · by_cases h2 : token.length * 10 + 20 < m.last - m.first + 1
    · simp [h1, h2, hmax]
      omega
    · simp [h1, h2, hmax]
      omega

/-- Count of query tokens that fail `fuzzy_token_match` (the complement
of the `matched` list of `fuzzy_tokens_score`). -/
def fuzzyMissCount (haystack : List Char) (tokens : List (List Char)) : Nat :=
  (tokens.enum.filter (fun p => (fuzzy_token_match haystack p.2 p.1).isNone)).length

theorem fuzzyMatched_add_missing (haystack : List Char) (l : List (Nat × List Char)) :
    (l.filterMap (fun p => fuzzy_token_match haystack p.2 p.1)).length +
      (l.filter (fun p => (fuzzy_token_match haystack p.2 p.1).isNone)).length = l.length := by
  induction l with
  | nil => rfl
  | cons a t ih =>
    cases hfa : fuzzy_token_match haystack a.2 a.1 <;>
      simp [List.filterMap_cons, List.filter_cons, hfa] <;> omega

/-- `fuzzy_tokens_score` succeeds exactly when the number of unmatched
tokens is within the tolerance: zero misses for 1–2 tokens, at most one
miss for 3 or more. -/
theorem fuzzy_tokens_score_isSome (haystack : List Char) (tokens : List (List Char))
    (h : tokens ≠ []) :
    (fuzzy_tokens_score haystack tokens).isSome ↔
      fuzzyMissCount haystack tokens ≤ if tokens.length ≤ 2 then 0 else 1 := by
  have hlen0 : ¬ tokens.length = 0 := by simpa using h
  have hcount := fuzzyMatched_add_missing haystack tokens.enum
  rw [List.enum_length] at hcount
  rw [fuzzyMissCount]
  simp only [fuzzy_tokens_score]
  rw [if_neg hlen0]
  by_cases hle : tokens.length ≤ 2
  · rw [if_pos hle, if_pos hle]
    by_cases hm : (tokens.enum.filterMap fun p => fuzzy_token_match haystack p.2 p.1).length <
        tokens.length
    · rw [if_pos hm]
      simp only [Option.isSome_none, Bool.false_eq_true, false_iff]
      omega
    · rw [if_neg hm]
      by_cases h2 : (tokens.enum.filterMap fun p => fuzzy_token_match haystack p.2 p.1).length < 2
      · rw [if_pos h2]
        simp only [Option.isSome_some, true_iff]
        omega
      · rw [if_neg h2]
        simp only [Option.isSome_some, true_iff]
        omega
  · rw [if_neg hle, if_neg hle]
    by_cases hm : (tokens.enum.filterMap fun p => fuzzy_token_match haystack p.2 p.1).length <
        tokens.length - 1
    · rw [if_pos hm]
      simp only [Option.isSome_none, Bool.false_eq_true, false_iff]
      omega
    · rw [if_neg hm]
      by_cases h2 : (tokens.enum.filterMap fun p => fuzzy_token_match haystack p.2 p.1).length < 2
      · rw [if_pos h2]
        simp only [Option.isSome_some, true_iff]
        omega
      · rw [if_neg h2]
        simp only [Option.isSome_some, true_iff]
        omega

/-! ## Test fixtures

Concrete entries, options and journal states used by the witnesses and
counterexamples below. -/

def mkEntry (name path : String) : FileEntry :=
  { name := name, name_lower := lowercase_for_search name, path := path,
    path_lower := lowercase_for_search path, drive := 0, frn := 0, parent_frn := 0,
    size := 0, modified_ms := 0, is_dir := false, is_hidden := false }

/-- An entry whose `name` is not the last component of its `path`. -/
def c1entry : FileEntry := mkEntry "x" "y"

/-- A well-formed entry: name and lowercase keys derived from the path. -/
def c1wf : FileEntry :=
  { name := "file.txt", name_lower := "file.txt", path := "c:/dir/file.txt",
    path_lower := "c:/dir/file.txt", drive := 3, frn := 9, parent_frn := 1,
    size := 5, modified_ms := 7, is_dir := false, is_hidden := true }

def optsZero : SearchOptions := { SearchOptions.defaults with max_results := 0 }

def hwEntry : FileEntry := mkEntry "hello_world.txt" "c:/hello_world.txt"

def c6stA : UsnDriveState := ⟨67, 1, 5, 0⟩

def c6volA : VolumeJournal := ⟨1, 10, [⟨7, 5, 0, 0x100, "f.txt"⟩]⟩

def c6stB : UsnDriveState := ⟨68, 2, 5, 0⟩

def c6volB : VolumeJournal := ⟨3, 0, []⟩

def c8e0 : FileEntry := mkEntry "ab" "p0"

def c8e1 : FileEntry := mkEntry "ab_x" "p1"

def c8e2 : FileEntry := mkEntry "ab" "p2"

def c8e3 : FileEntry := mkEntry "ab_xx" "p3"

/-- Volume-C entry with frn 7. -/
def c9c : FileEntry :=
  { name := "f", name_lower := "f", path := "c:/f", path_lower := "c:/f",
    drive := 67, frn := 7, parent_frn := 5, size := 0, modified_ms := 0,
    is_dir := false, is_hidden := false }

/-- Volume-D entry that happens to carry the same frn 7. -/
def c9d : FileEntry :=
  { name := "g", name_lower := "g", path := "d:/g", path_lower := "d:/g",
    drive := 68, frn := 7, parent_frn := 5, size := 0, modified_ms := 0,
    is_dir := false, is_hidden := false }

def c9del : UsnEvent := ⟨7, 5, 0, 0x200, "f"⟩

/-- `"a"` then 48 `x`s then `"bc"`: `abc` occurs as a subsequence with
span 51 > 10·3 + 20. -/
def c10hay : String := ⟨'a' :: List.replicate 48 'x' ++ "bc".data⟩

/-! ## Claims -/

theorem to_from_entry_flags (e : FileEntry) :
    (DiskEntryV2.to_entry (DiskEntryV2.from_entry e)).is_dir = e.is_dir ∧
    (DiskEntryV2.to_entry (DiskEntryV2.from_entry e)).is_hidden = e.is_hidden := by
  obtain ⟨n, nl, p, pl, dr, fr, pf, sz, mo, hd, hh⟩ := e
  cases hd <;> cases hh <;>
    simp [DiskEntryV2.to_entry, DiskEntryV2.from_entry]

/-- C1 (amended): round-tripping an entry list through the cache codec
succeeds and reproduces path, size, modified time and both flags of every
entry; the recomputed `name`, `name_lower` and `path_lower` equal the
originals **provided** the original entry was well-formed (its name is
the last path component and the lowercase keys are derived).  Without
that hypothesis the claim fails (see the counterexample). -/
theorem cache_roundtrip_equiv : ∀ (entries : List FileEntry),
    (∀ e ∈ entries, e.name = file_name_from_normalized_path e.path ∧
      e.name_lower = lowercase_for_search e.name ∧
      e.path_lower = lowercase_for_search e.path) →
    ∃ loaded : List FileEntry, load_cache_v2 (save_cache entries) = Except.ok loaded ∧
      loaded.length = entries.length ∧
      ∀ (i : Nat) (e : FileEntry), entries[i]? = some e →
        ∃ le : FileEntry, loaded[i]? = some le ∧
        le.path = e.path ∧ le.size = e.size ∧ le.modified_ms = e.modified_ms ∧
        le.is_dir = e.is_dir ∧ le.is_hidden = e.is_hidden ∧
        le.name = e.name ∧ le.name_lower = e.name_lower ∧
        le.path_lower = e.path_lower := by
  intro entries hwf
  refine ⟨(entries.map DiskEntryV2.from_entry).map DiskEntryV2.to_entry, ?_, by simp, ?_⟩
  · rw [load_cache_v2]
    rw [if_neg (fun h => h rfl), if_neg (fun h => h rfl), if_neg (fun h => h rfl)]
    rfl
  · intro i e hi
    have he := hwf e (List.getElem?_mem hi)
    refine ⟨DiskEntryV2.to_entry (DiskEntryV2.from_entry e), ?_, rfl, rfl, rfl,
      (to_from_entry_flags e).1, (to_from_entry_flags e).2, ?_, ?_, ?_⟩
    · rw [List.getElem?_map, List.getElem?_map, hi]
      rfl
    · exact he.1.symm
    · show lowercase_for_search (file_name_from_normalized_path e.path) = e.name_lower
      rw [← he.1]
      exact he.2.1.symm
    · show lowercase_for_search e.path = e.path_lower
      exact he.2.2.symm

/-- C1 witness: a well-formed concrete entry satisfies the hypothesis and
round-trips. -/
theorem cache_roundtrip_equiv_witness :
    (∀ e ∈ [c1wf], e.name = file_name_from_normalized_path e.path ∧
      e.name_lower = lowercase_for_search e.name ∧
      e.path_lower = lowercase_for_search e.path) ∧
    (∃ loaded : List FileEntry, load_cache_v2 (save_cache [c1wf]) = Except.ok loaded ∧
      loaded.length = [c1wf].length ∧
      ∀ (i : Nat) (e : FileEntry), [c1wf][i]? = some e →
        ∃ le : FileEntry, loaded[i]? = some le ∧
        le.path = e.path ∧ le.size = e.size ∧ le.modified_ms = e.modified_ms ∧
        le.is_dir = e.is_dir ∧ le.is_hidden = e.is_hidden ∧
        le.name = e.name ∧ le.name_lower = e.name_lower ∧
        le.path_lower = e.path_lower) :=
  ⟨by decide, cache_roundtrip_equiv [c1wf] (by decide)⟩

/-- C1 counterexample: for an entry whose `name` is not the last path
component, the reloaded entry's recomputed name differs from the
original, so the frozen claim's unconditional equivalence fails. -/
theorem cache_roundtrip_name_counterexample :
    (load_cache_v2 (save_cache [c1entry])).toOption.map (List.map FileEntry.name) =
      some ["y"] ∧ c1entry.name ≠ "y" := by decide

/-- C2 (confirmed): with a nonempty token list, a haystack scores in
fuzzy mode iff no token misses when there are 1–2 tokens, and iff at
most one token misses when there are 3 or more. -/
theorem fuzzy_token_tolerance : ∀ (haystack : List Char) (tokens : List (List Char)),
    tokens ≠ [] →
    ((tokens.length ≤ 2 →
      ((fuzzy_tokens_score haystack tokens).isSome ↔
        fuzzyMissCount haystack tokens = 0)) ∧
     (3 ≤ tokens.length →
      ((fuzzy_tokens_score haystack tokens).isSome ↔
        fuzzyMissCount haystack tokens ≤ 1))) := by
  intro haystack tokens ht
  have h := fuzzy_tokens_score_isSome haystack tokens ht
  constructor
  · intro hle
    rw [if_pos hle] at h
    rw [h]
    omega
  · intro hge
    rw [if_neg (by omega)] at h
    exact h

/-- C2 witness at a concrete two-token query. -/
theorem fuzzy_token_tolerance_witness :
    (["hello".data, "world".data] ≠ ([] : List (List Char))) ∧
    ((["hello".data, "world".data].length ≤ 2 →
      ((fuzzy_tokens_score "hello_world.txt".data
          ["hello".data, "world".data]).isSome ↔
        fuzzyMissCount "hello_world.txt".data ["hello".data, "world".data] = 0)) ∧
     (3 ≤ ["hello".data, "world".data].length →
      ((fuzzy_tokens_score "hello_world.txt".data
          ["hello".data, "world".data]).isSome ↔
        fuzzyMissCount "hello_world.txt".data ["hello".data, "world".data] ≤ 1))) :=
  ⟨by decide,
   fuzzy_token_tolerance "hello_world.txt".data ["hello".data, "world".data]
     (by decide)⟩

/-- C3 (amended): search returns at most `max max_results 1` results —
the Rust code clamps the cap with `max_results.max(1)`, so `max_results
= 0` still yields one result — and the selection is exact top-K: a
matching entry absent from the result list (by its loop index) scores no
higher than any returned result. -/
theorem search_topk_exact (opts : SearchOptions) (entries : List FileEntry)
    (pattern : String) :
    (Searcher.search opts entries pattern).length ≤ max opts.max_results 1 ∧
    ∀ (i : Nat) (e : FileEntry) (s : Q), entries[i]? = some e →
      candidateScore opts (searchTokens opts pattern) e = some s →
      (∀ it ∈ searchRanked opts entries pattern, it.tie ≠ i) →
      ∀ r ∈ Searcher.search opts entries pattern, s ≤ r.score := by
  have htop := searchHeap_topk opts entries pattern
  have hperm := searchRanked_perm opts entries pattern
  constructor
  · rw [Searcher.search, List.length_map, hperm.length_eq]
    exact htop.1
  · intro i e s hi hc hni r hr
    rw [Searcher.search] at hr
    obtain ⟨it, hit, hrit⟩ := List.mem_map.1 hr
    have hni2 : ∀ it2 ∈ searchHeap opts entries pattern, it2.tie ≠ i := by
      intro it2 hit2
      exact hni it2 (hperm.mem_iff.mpr hit2)
    have := htop.2 i e s hi hc hni2 it (hperm.mem_iff.mp hit)
    rw [← hrit]
    exact this

/-- C3 counterexample: with `max_results = 0` the search still returns
one result, refuting the frozen bound `length ≤ max_results`. -/
theorem search_max_results_counterexample :
    ¬ ((Searcher.search optsZero [mkEntry "a" "a"] "a").length ≤
      optsZero.max_results) := by decide

/-- C4 (confirmed): fuzzy search for "world hello" returns the entry
named `hello_world.txt`, and the in-order query "hello world" scores
strictly higher against that name than the swapped-order query. -/
theorem swapped_order_query_scores :
    (Searcher.search SearchOptions.defaults [hwEntry] "world hello").map
      (fun r => r.entry.name) = ["hello_world.txt"] ∧
    (fuzzy_tokens_score "hello_world.txt".data ["hello".data, "world".data]).isSome ∧
    (fuzzy_tokens_score "hello_world.txt".data ["world".data, "hello".data]).isSome ∧
    ((fuzzy_tokens_score "hello_world.txt".data ["world".data, "hello".data]).getD 0) <
      ((fuzzy_tokens_score "hello_world.txt".data ["hello".data, "world".data]).getD 0) := by
  decide

/-- C5 (confirmed): a delete event for a known directory entry removes
it together with every same-volume entry under `old_path ++ "/"` (up to
the order shuffle of swap-removal); a rename event for a known directory
entry rewrites the old prefix of every other same-volume descendant to
the new prefix, keeping the suffix, and leaves every other entry
untouched in place.  Paths are normalized (nonempty, no trailing
slash), matching what the indexer stores. -/
theorem usn_dir_delete_rename_cascade :
    (∀ (entries : List FileEntry) (m : List (Nat × Nat)) (drive root_frn : Nat)
        (ev : UsnEvent) (idx : Nat),
      ev.reason &&& USN_REASON_FILE_DELETE ≠ 0 →
      List.lookup ev.frn m = some idx →
      idx < entries.length →
      (entryAt entries idx).is_dir = true →
      (entryAt entries idx).path ≠ "" →
      (entryAt entries idx).path.endsWith "/" = false →
      ((applyUsnEvent drive root_frn (entries, m) ev).1).Perm
        ((entries.eraseIdx idx).filter
          (fun e => !(decide (e.drive = drive ∧
            ((entryAt entries idx).path ++ "/").isPrefixOf e.path))))) ∧
    (∀ (entries : List FileEntry) (m : List (Nat × Nat)) (drive root_frn : Nat)
        (ev : UsnEvent) (idx : Nat) (new_path : String),
      ev.reason &&& USN_REASON_FILE_DELETE = 0 →
      ev.reason &&& USN_REASON_RENAME_NEW_NAME ≠ 0 →
      List.lookup ev.frn m = some idx →
      compose_path entries m drive root_frn ev.parent_frn ev.name = some new_path →
      (entryAt entries idx).is_dir = true →
      (entryAt entries idx).path ≠ "" →
      (entryAt entries idx).path ≠ new_path →
      (entryAt entries idx).path.endsWith "/" = false →
      new_path.endsWith "/" = false →
      ((applyUsnEvent drive root_frn (entries, m) ev).1).length = entries.length ∧
      ∀ (j : Nat) (e : FileEntry), entries[j]? = some e → j ≠ idx →
        (e.drive = drive ∧ ((entryAt entries idx).path ++ "/").isPrefixOf e.path →
          ((applyUsnEvent drive root_frn (entries, m) ev).1)[j]? =
            some { e with
              path := (new_path ++ "/") ++
                e.path.drop ((entryAt entries idx).path ++ "/").length,
              path_lower := lowercase_for_search ((new_path ++ "/") ++
                e.path.drop ((entryAt entries idx).path ++ "/").length) }) ∧
        (¬(e.drive = drive ∧ ((entryAt entries idx).path ++ "/").isPrefixOf e.path) →
          ((applyUsnEvent drive root_frn (entries, m) ev).1)[j]? = some e)) :=
  ⟨fun entries m drive root_frn ev idx h1 h2 h3 h4 h5 h6 =>
    applyUsnEvent_delete_dir entries m drive root_frn ev idx h1 h2 h3 h4 h5 h6,
   fun entries m drive root_frn ev idx new_path h1 h2 h3 h4 h5 h6 h7 h8 h9 =>
    applyUsnEvent_rename_dir entries m drive root_frn ev idx new_path
      h1 h2 h3 h4 h5 h6 h7 h8 h9⟩

/-- C6 (amended): a journal-id mismatch on the volume being read yields
the journal-invalidated error, applies none of that volume's events, and
— when the mismatch is on the first volume of the sync — leaves the
entry list and the stored cursors completely unchanged.  (With the
mismatch on a later volume, earlier volumes' events remain applied; see
the counterexample.) -/
theorem usn_journal_mismatch_error (entries : List FileEntry) (st : UsnDriveState)
    (vol : VolumeJournal) (rest : List (UsnDriveState × VolumeJournal))
    (hmm : vol.journal_id ≠ st.journal_id) :
    try_apply_usn_incremental entries ((st, vol) :: rest) true =
      (Except.error UsnSyncError.journalInvalidated, entries,
        st :: rest.map Prod.fst) := by
  rw [try_apply_usn_incremental, if_neg (by simp)]
  rw [tryApplyGo]
  rw [if_neg (by simp)]
  rw [read_usn_events, if_pos hmm]
  dsimp only
  rfl

/-- C6 witness: a concrete mismatching volume as the first of the sync. -/
theorem usn_journal_mismatch_error_witness :
    c6volB.journal_id ≠ c6stB.journal_id ∧
    try_apply_usn_incremental [] [(c6stB, c6volB)] true =
      (Except.error UsnSyncError.journalInvalidated, [], [c6stB]) :=
  ⟨by decide, usn_journal_mismatch_error [] c6stB c6volB [] (by decide)⟩

/-- C6 counterexample: when the mismatch is on the *second* volume, the
sync reports the error but the first volume's create event has already
mutated the entry set — the frozen "entry set left completely
unchanged" is false. -/
theorem usn_journal_mismatch_counterexample :
    (try_apply_usn_incremental [] [(c6stA, c6volA), (c6stB, c6volB)] true).1 =
      Except.error UsnSyncError.journalInvalidated ∧
    (try_apply_usn_incremental [] [(c6stA, c6volA), (c6stB, c6volB)] true).2.1 ≠ [] := by
  decide

/-- C7 (confirmed): a token of at most 2 characters contributes a match
exactly when the greedy subsequence match exists with zero gaps, i.e.
when its characters occur contiguously; any gapped subsequence match is
treated as no match. -/
theorem short_token_contiguous (haystack token : List Char) (qi : Nat)
    (hshort : token.length ≤ 2) :
    (fuzzy_token_match haystack token qi).isSome ↔
      ∃ m : FuzzyMatch, fuzzy_match haystack token = some m ∧ m.gaps = 0 := by
  by_cases htok : token = []
  · subst htok
    simp [fuzzy_token_match, fuzzy_match]
  · have h1len : 1 ≤ token.length := by
      cases token with
      | nil => exact absurd rfl htok
      | cons a l => simp
    cases hfm : fuzzy_match haystack token with
    | none =>
      rw [fuzzy_token_match, if_neg htok, hfm]
      simp [hfm]
    | some m =>
      have hspan := fuzzy_match_span haystack token m hfm
      rw [fuzzy_token_match_isSome_iff haystack token qi m h1len hfm]
      constructor
      · rintro ⟨himp, hspanle⟩
        exact ⟨m, rfl, himp hshort⟩
      · rintro ⟨m2, hm2, hg⟩
        injection hm2 with hmm
        rw [← hmm] at hg
        exact ⟨fun _ => hg, by omega⟩

/-- C7 witness: a 2-character token over a haystack where the greedy
subsequence match is gapped. -/
theorem short_token_contiguous_witness :
    ("ab".data.length ≤ 2) ∧
    ((fuzzy_token_match "xaxbxab".data "ab".data 0).isSome ↔
      ∃ m : FuzzyMatch, fuzzy_match "xaxbxab".data "ab".data = some m ∧ m.gaps = 0) :=
  ⟨by decide, short_token_contiguous "xaxbxab".data "ab".data 0 (by decide)⟩

/-- C8 (amended): the result list is sorted in non-increasing score
order.  Equal-score ties are deterministic but follow the heap's
internal backing-vector order, not the original entry order (see the
counterexample). -/
theorem search_sorted_desc (opts : SearchOptions) (entries : List FileEntry)
    (pattern : String) :
    (Searcher.search opts entries pattern).Pairwise
      (fun a b => b.score ≤ a.score) := by
  rw [Searcher.search]
  exact List.Pairwise.map _ (fun a b h => h) (searchRanked_sorted opts entries pattern)

/-- C8 counterexample: four entries where two score identically; the
ranked output puts original index 2 before original index 0 among the
equal scores, refuting smaller-index-first tie-breaking. -/
theorem search_tie_order_counterexample :
    (searchRanked SearchOptions.defaults [c8e0, c8e1, c8e2, c8e3] "ab").map
      HeapItem.tie = [2, 0, 1, 3] ∧
    (lget (searchRanked SearchOptions.defaults [c8e0, c8e1, c8e2, c8e3] "ab") 0).score =
      (lget (searchRanked SearchOptions.defaults [c8e0, c8e1, c8e2, c8e3] "ab") 1).score := by
  decide

/-- C9 (amended): the frn table stays consistent (unique nonzero keys,
each mapped index holding an entry with that frn) across swap-removal,
across insertion, and throughout every prefix of a batch of nonzero-frn
events starting from the freshly built table.  The removed entry's frn
is guaranteed absent afterwards only when no *other* entry — including
entries of other volumes — carries the same frn: the swap-in re-inserts
the moved entry's frn without checking its volume (see the
counterexample). -/
theorem frn_map_consistency :
    (∀ (entries : List FileEntry) (m : List (Nat × Nat)) (idx : Nat),
      idx < entries.length → UsnMapConsistent entries m →
      UsnMapConsistent (remove_entry_by_idx entries idx m).1
        (remove_entry_by_idx entries idx m).2) ∧
    (∀ (entries : List FileEntry) (m : List (Nat × Nat)) (newE : FileEntry),
      newE.frn ≠ 0 → UsnMapConsistent entries m →
      UsnMapConsistent (entries ++ [newE]) (mapInsert m newE.frn entries.length)) ∧
    (∀ (entries : List FileEntry) (drive root_frn : Nat)
        (events : List UsnEvent) (n : Nat),
      (∀ ev ∈ events, ev.frn ≠ 0) →
      UsnMapConsistent
        ((events.take n).foldl (applyUsnEvent drive root_frn)
          (entries, buildFrnMap entries drive)).1
        ((events.take n).foldl (applyUsnEvent drive root_frn)
          (entries, buildFrnMap entries drive)).2) ∧
    (∀ (entries : List FileEntry) (m : List (Nat × Nat)) (idx : Nat),
      idx < entries.length →
      (entryAt entries idx).frn ≠ 0 →
      (∀ (j : Nat) (e : FileEntry), entries[j]? = some e → j ≠ idx →
        e.frn ≠ (entryAt entries idx).frn) →
      List.lookup (entryAt entries idx).frn (remove_entry_by_idx entries idx m).2 =
        none) := by
  refine ⟨?_, ?_, ?_, ?_⟩
  · intro entries m idx hidx hinv
    exact remove_entry_by_idx_inv hidx hinv
  · intro entries m newE hfrn hinv
    exact consistent_append_insert newE hfrn hinv
  · intro entries drive root_frn events n hfrns
    exact applyEventsFold_inv drive root_frn (events.take n) entries
      (buildFrnMap entries drive)
      (fun ev hev => hfrns ev (List.take_subset n events hev))
      (buildFrnMap_consistent entries drive)
  · intro entries m idx hidx hfrn0 hglobal
    exact remove_entry_stale_free hidx hfrn0 hglobal

/-- C9 counterexample: deleting the volume-C entry with frn 7 swaps the
volume-D entry bearing the same frn into its slot, and the swap-in
re-binds key 7 — the removed entry's frn remains a key of the table,
refuting the frozen claim's "no removed entry's frn remains". -/
theorem frn_map_stale_counterexample :
    (List.foldl (applyUsnEvent 67 5) ([c9c, c9d], buildFrnMap [c9c, c9d] 67)
      [c9del]).1 = [c9d] ∧
    List.lookup 7
      (List.foldl (applyUsnEvent 67 5) ([c9c, c9d], buildFrnMap [c9c, c9d] 67)
        [c9del]).2 = some 0 ∧
    c9c.frn = 7 := by decide

/-- C10 (confirmed): whenever the greedy subsequence match of a token
spans more than `10·len + 20` positions, the token is treated as no
match; concretely, `abc` is a subsequence of `c10hay` (span 51 > 50) yet
searching "abc" over an entry with that name returns nothing. -/
theorem span_cap_no_match :
    (∀ (haystack token : List Char) (qi : Nat) (m : FuzzyMatch),
      fuzzy_match haystack token = some m →
      token.length * 10 + 20 < m.last - m.first + 1 →
      fuzzy_token_match haystack token qi = none) ∧
    ((fuzzy_match c10hay.data "abc".data).isSome = true ∧
      Searcher.search SearchOptions.defaults [mkEntry c10hay "p"] "abc" = []) := by
  constructor
  · intro haystack token qi m hfm hcap
    by_cases htok : token = []
    · subst htok
      rw [fuzzy_match] at hfm
      exact absurd hfm (by simp)
    · have h1len : 1 ≤ token.length := by
        cases token with
        | nil => exact absurd rfl htok
        | cons a l => simp
      rw [← Option.not_isSome_iff_eq_none]
      intro hs
      rw [fuzzy_token_match_isSome_iff haystack token qi m h1len hfm] at hs
      omega
  · exact ⟨by decide, by decide⟩

end RustSearch
